import Mathlib

/-!
The chained hash table of libqb, `lib/hashtable.c`.

A shallow embedding of the hash table behind the generic `qb_map` contract,
followed by the properties established about it.

Modelling conventions.

* Keys and values are opaque references (`void *`): they are elements of
  arbitrary types `K` and `V`.  The comparison callback receives the stored key
  first, the searched key second and the opaque `key_compare_data` third, and
  returns an `int32_t` (`0` means equal).
* A bucket chain (a circular doubly linked `qb_list_head` list with a sentinel)
  is the list of its nodes from `list_head.next` onwards; a node of a chain is
  designated by its position in the chain.
* `hash_buckets[i]` with `i` outside the allocated array is an out-of-bounds
  access.  Every operation that indexes the bucket array returns an `Option`
  whose `none` stands for that undefined behaviour.
* `count` is a `size_t`.  Every counted entry is a live allocation and a
  decrement only happens for a node that was found in a chain, so the counter
  never wraps; it is an unbounded natural number here.
* The 32-bit quantities of `hash_fnv` and of the order computation in
  `qb_hashtable_create` are reduced modulo `2 ^ 32` explicitly.
* `hashtable_foreach` is rendered twice: `hashtable_foreach` for a visitor that
  does not touch the table, and `hashtable_foreach_calling` for a visitor that
  calls `put` and `remove` on the table being iterated, where the captured
  `next` pointer is followed through those calls.  The two agree on visitors
  that make no call (`foreach_calling_quiet`).
-/

namespace Qb

/-! ## Data model -/

/-- The `struct hash_node`: one entry of a bucket chain (the `list` linkage is
the position of the node in its chain). -/
structure hash_node (K V : Type) where
  value : V
  key : K

/-- The part of `struct qb_map` that the hash table reads: the comparison
callback with its opaque data, and whether a key / value destroy notifier is
configured (non-`NULL`).  The notifier invocations themselves are recorded as
`destroy_call`s by the operations. -/
structure qb_map (K V D : Type) where
  key_compare_func : K → K → D → Int
  key_compare_data : D
  key_destroy_func : Bool
  value_destroy_func : Bool

/-- The `struct hash_table`. -/
structure hash_table (K V D : Type) where
  map : qb_map K V D
  count : Nat
  order : Nat
  hash_fn : K → Nat → Nat
  hash_buckets_len : Nat
  hash_buckets : List (List (hash_node K V))

/-- One invocation of a destroy notifier, with its argument. -/
inductive destroy_call (K V : Type) where
  | key_destroy (key : K)
  | value_destroy (value : V)

/-- Modelled from the spec: the macro `QB_FALSE` of `qb/qbdefs.h` is not among
the sources; `remove` "returns false if no match". -/
def QB_FALSE : Int := 0

/-- Modelled from the spec: the macro `QB_TRUE` of `qb/qbdefs.h` is not among
the sources; `remove` "returns true" on a match. -/
def QB_TRUE : Int := 1

/-- Modelled from the spec: the macro `QB_MAX` of `qb/qbdefs.h` is not among
the sources; the spec's "order ≥ 3, i.e. minimum 8 buckets" makes it the larger
of its two arguments. -/
def QB_MAX (a b : Nat) : Nat := if a > b then a else b

/-- Modelled from the spec: the value `ENOMEM` of `errno.h` is not among the
sources; it is the "process-visible allocation-failure indicator". -/
def ENOMEM : Int := 12

/-- Modelled from the spec: `qb_list_add_tail` of `qb/qblist.h` is not among
the sources; the list primitive provides "insert-at-tail". -/
def qb_list_add_tail {N : Type} (node : N) (head : List N) : List N := head ++ [node]

/-- Modelled from the spec: `qb_list_del` of `qb/qblist.h` is not among the
sources; the list primitive provides "unlink-given-node".  The node is given by
its position in the chain. -/
def qb_list_del {N : Type} (pos : Nat) (chain : List N) : List N := chain.eraseIdx pos

/-! ## Hash functions -/

/-- The constant `FNV_32_PRIME`. -/
def FNV_32_PRIME : Nat := 0x01000193

/-- The `while (cd < ed)` loop of `hash_fnv` over the bytes still to read. -/
def hash_fnv_loop (hash_result : Nat) : List Nat → Nat
  | [] => hash_result
  | cd :: rest => hash_fnv_loop (((hash_result ^^^ (cd % 256)) * FNV_32_PRIME) % 2 ^ 32) rest

/-- The function `hash_fnv`.  `value` is the list of the `valuelen` bytes found
at the pointer `value`.  The shifts are those of C for `order < 32`, which holds
on every table built by `qb_hashtable_create`. -/
def hash_fnv (value : List Nat) (order : Nat) : Nat :=
  let hash_result := hash_fnv_loop 0x811c9dc5 value
  let res := ((hash_result >>> order) ^^^ hash_result) &&& ((1 <<< order) - 1)
  res

/-- The libc function `strlen` on the list of bytes readable at `str`: the
number of bytes before the first NUL, a `size_t`. -/
def strlen (str : List Nat) : Nat :=
  (str.takeWhile (fun c => c % 256 ≠ 0)).length

/-- The function `qb_hash_string`; `key` is the list of bytes readable at the
key reference.  The `size_t` result of `strlen` is converted to the `uint32_t`
parameter `valuelen` of `hash_fnv`, so `hash_fnv` reads the first
`strlen(str) mod 2 ^ 32` bytes at `key`. -/
def qb_hash_string (key : List Nat) (order : Nat) : Nat :=
  hash_fnv (key.take (strlen key % 2 ^ 32)) order

/-- The function `qb_hash_char`: `sizeof(char)` is one byte. -/
def qb_hash_char (key : List Nat) (order : Nat) : Nat :=
  hash_fnv (key.take 1) order

/-- The function `qb_hash_pointer`: `sizeof(uint32_t)` is four bytes. -/
def qb_hash_pointer (key : List Nat) (order : Nat) : Nat :=
  hash_fnv (key.take 4) order

/-! ## Table operations -/

/-- The chain traversal shared by `hashtable_get` and `hashtable_rm_with_hash`
(the two `for` loops are the same): the first node whose key the comparison
callback reports equal to `key`, with its position. -/
def chain_find {K V D : Type} (m : qb_map K V D) (key : K) :
    List (hash_node K V) → Option (Nat × hash_node K V)
  | [] => none
  | hash_node :: rest =>
    if m.key_compare_func hash_node.key key m.key_compare_data = 0 then
      some (0, hash_node)
    else
      match chain_find m key rest with
      | some (pos, found) => some (pos + 1, found)
      | none => none

/-- The function `hashtable_get`.  The inner `none` is the `NULL` result. -/
def hashtable_get {K V D : Type} (t : hash_table K V D) (key : K) : Option (Option V) :=
  let hash_entry := t.hash_fn key t.order
  match t.hash_buckets[hash_entry]? with
  | none => none
  | some chain =>
    match chain_find t.map key chain with
    | some (_, hash_node) => some (some hash_node.value)
    | none => some none

/-- What `hashtable_rm_with_hash` leaves behind: its return value, the table,
and the destroy notifier calls it made, in order. -/
structure rm_result (K V D : Type) where
  ret : Int
  ht : hash_table K V D
  notified : List (destroy_call K V)

/-- The function `hashtable_rm_with_hash`. -/
def hashtable_rm_with_hash {K V D : Type} (t : hash_table K V D) (key : K)
    (hash_entry : Nat) : Option (rm_result K V D) :=
  match t.hash_buckets[hash_entry]? with
  | none => none
  | some chain =>
    match chain_find t.map key chain with
    | some (pos, hash_node) =>
      some {
        ret := QB_TRUE
        ht := { t with
          count := t.count - 1
          hash_buckets := t.hash_buckets.set hash_entry (qb_list_del pos chain) }
        notified :=
          (if t.map.key_destroy_func then [destroy_call.key_destroy hash_node.key] else [])
          ++ (if t.map.value_destroy_func then [destroy_call.value_destroy hash_node.value]
              else []) }
    | none => some { ret := QB_FALSE, ht := t, notified := [] }

/-- The function `hashtable_rm`. -/
def hashtable_rm {K V D : Type} (t : hash_table K V D) (key : K) :
    Option (rm_result K V D) :=
  let hash_entry := t.hash_fn key t.order
  hashtable_rm_with_hash t key hash_entry

/-- What `hashtable_put` leaves behind: the table, the destroy notifier calls
made, and the value stored into `errno`, if any. -/
structure put_result (K V D : Type) where
  ht : hash_table K V D
  notified : List (destroy_call K V)
  errno : Option Int

/-- The function `hashtable_put`.  `malloc_ok` tells whether the allocation of
the new node succeeds. -/
def hashtable_put {K V D : Type} (t : hash_table K V D) (key : K) (value : V)
    (malloc_ok : Bool) : Option (put_result K V D) :=
  let hash_entry := t.hash_fn key t.order
  match hashtable_rm_with_hash t key hash_entry with
  | none => none
  | some r =>
    if malloc_ok = false then
      some { ht := r.ht, notified := r.notified, errno := some ENOMEM }
    else
      match r.ht.hash_buckets[hash_entry]? with
      | none => none
      | some chain =>
        some {
          ht := { r.ht with
            count := r.ht.count + 1
            hash_buckets :=
              r.ht.hash_buckets.set hash_entry (qb_list_add_tail ⟨value, key⟩ chain) }
          notified := r.notified
          errno := none }

/-- The function `hashtable_count_get`. -/
def hashtable_count_get {K V D : Type} (t : hash_table K V D) : Nat :=
  t.count

/-- The inner loop of `hashtable_foreach` over one chain, for a visitor that
does not touch the table: `func` threads the `user_data` state and returns the
`int32_t` stop signal.  The result says whether the function returned from
inside the loop. -/
def foreach_chain {K V U : Type} (func : K → V → U → Int × U) :
    List (hash_node K V) → U → Bool × U
  | [], user_data => (false, user_data)
  | hash_node :: next, user_data =>
    let r := func hash_node.key hash_node.value user_data
    if r.1 ≠ 0 then (true, r.2) else foreach_chain func next r.2

/-- The outer loop of `hashtable_foreach` from bucket `i`, with `todo` buckets
left before `i` reaches `hash_buckets_len`. -/
def foreach_buckets {K V D U : Type} (t : hash_table K V D) (func : K → V → U → Int × U) :
    Nat → Nat → U → Option U
  | 0, _, user_data => some user_data
  | todo + 1, i, user_data =>
    match t.hash_buckets[i]? with
    | none => none
    | some chain =>
      let r := foreach_chain func chain user_data
      if r.1 then some r.2 else foreach_buckets t func todo (i + 1) r.2

/-- The function `hashtable_foreach` for a visitor that does not touch the
table; the result is the final `user_data` state. -/
def hashtable_foreach {K V D U : Type} (t : hash_table K V D)
    (func : K → V → U → Int × U) (user_data : U) : Option U :=
  foreach_buckets t func t.hash_buckets_len 0 user_data

/-! ## Construction -/

/-- The conversion of a `size_t` to `int32_t` (`int32_t n = max_size`): the low
32 bits read as a two's complement number. -/
def to_int32 (x : Nat) : Int :=
  if x % 2 ^ 32 < 2 ^ 31 then ((x % 2 ^ 32 : Nat) : Int) else ((x % 2 ^ 32 : Nat) : Int) - 2 ^ 32

/-- The loop `for (i = 0; n; i++) n >>= 1;` of `qb_hashtable_create`, with the
arithmetic right shift of a signed `n`.  `none` means that the loop is still
running when the fuel is used up. -/
def order_loop : Nat → Nat → Int → Option Nat
  | fuel, i, n =>
    if n = 0 then some i
    else match fuel with
      | 0 => none
      | fuel + 1 => order_loop fuel (i + 1) (n >>> 1)

/-- How a call of `qb_hashtable_create` ends. -/
inductive create_result (K V D : Type) where
  | returned (ht : hash_table K V D)
  | null_dereference
  | no_return

/-- The function `qb_hashtable_create`.  `deref` gives the bytes readable at a
key reference (used by the default `qb_hash_pointer`), `hash_fn = none` is the
`NULL` argument, `calloc_ok` tells whether `calloc` succeeds, and `fuel` bounds
the number of iterations of the order loop that are followed. -/
def qb_hashtable_create {K V D : Type} (deref : K → List Nat)
    (key_compare_func : K → K → D → Int) (key_compare_data : D)
    (key_destroy_func value_destroy_func : Bool) (max_size : Nat)
    (hash_fn : Option (K → Nat → Nat)) (calloc_ok : Bool) (fuel : Nat) :
    create_result K V D :=
  match order_loop fuel 0 (to_int32 max_size) with
  | none => create_result.no_return
  | some i =>
    let order := QB_MAX i 3
    if calloc_ok = false then create_result.null_dereference
    else
      create_result.returned {
        map := {
          key_compare_func := key_compare_func
          key_compare_data := key_compare_data
          key_destroy_func := key_destroy_func
          value_destroy_func := value_destroy_func }
        count := 0
        order := order
        hash_fn := match hash_fn with
          | none => fun key order => qb_hash_pointer (deref key) order
          | some f => f
        hash_buckets_len := (1 <<< order) % 2 ^ 32
        hash_buckets := List.replicate ((1 <<< order) % 2 ^ 32) [] }

/-! ## Sequences of operations and reachable tables -/

/-- One mutating call through the map contract: a `put` (with the outcome of
its node allocation) or a `remove`. -/
inductive map_op (K V : Type) where
  | put (key : K) (value : V) (malloc_ok : Bool)
  | rm (key : K)

/-- The key a call is about. -/
def map_op.key {K V : Type} : map_op K V → K
  | map_op.put key _ _ => key
  | map_op.rm key => key

/-- Performing one call; `none` when the call indexes outside the bucket
array. -/
def apply_op {K V D : Type} (t : hash_table K V D) : map_op K V → Option (hash_table K V D)
  | map_op.put key value malloc_ok => (hashtable_put t key value malloc_ok).map (fun r => r.ht)
  | map_op.rm key => (hashtable_rm t key).map (fun r => r.ht)

/-- Performing a finite sequence of calls, first to last. -/
def apply_ops {K V D : Type} (t : hash_table K V D) : List (map_op K V) → Option (hash_table K V D)
  | [] => some t
  | op :: ops =>
    match apply_op t op with
    | none => none
    | some t1 => apply_ops t1 ops

/-- The tables reachable from `qb_hashtable_create` by `put` (whether or not
its allocation succeeds) and `remove`. -/
inductive Reachable {K V D : Type} : hash_table K V D → Prop where
  | create (deref : K → List Nat) (key_compare_func : K → K → D → Int) (key_compare_data : D)
      (key_destroy_func value_destroy_func : Bool) (max_size : Nat)
      (hash_fn : Option (K → Nat → Nat)) (fuel : Nat) (t : hash_table K V D)
      (h : qb_hashtable_create deref key_compare_func key_compare_data key_destroy_func
        value_destroy_func max_size hash_fn true fuel = create_result.returned t) :
      Reachable t
  | put (t : hash_table K V D) (key : K) (value : V) (malloc_ok : Bool) (r : put_result K V D)
      (ht : Reachable t) (h : hashtable_put t key value malloc_ok = some r) : Reachable r.ht
  | rm (t : hash_table K V D) (key : K) (r : rm_result K V D)
      (ht : Reachable t) (h : hashtable_rm t key = some r) : Reachable r.ht

/-! ## Vocabulary of the properties -/

/-- The comparison callback reports the stored key `a` equal to the key `b`. -/
def keys_equal {K V D : Type} (m : qb_map K V D) (a b : K) : Prop :=
  m.key_compare_func a b m.key_compare_data = 0

instance {K V D : Type} (m : qb_map K V D) (a b : K) : Decidable (keys_equal m a b) :=
  inferInstanceAs (Decidable (_ = 0))

/-- The comparison callback is an equivalence relation on keys. -/
structure compare_equivalence {K V D : Type} (m : qb_map K V D) : Prop where
  refl : ∀ a, keys_equal m a a
  symm : ∀ a b, keys_equal m a b → keys_equal m b a
  trans : ∀ a b c, keys_equal m a b → keys_equal m b c → keys_equal m a c

/-- The hash function returns an index below the bucket count for every key. -/
def hash_in_range {K V D : Type} (t : hash_table K V D) : Prop :=
  ∀ key, t.hash_fn key t.order < t.hash_buckets_len

/-- The hash function gives keys that compare equal the same index. -/
def hash_respects_compare {K V D : Type} (t : hash_table K V D) : Prop :=
  ∀ a b, keys_equal t.map a b → t.hash_fn a t.order = t.hash_fn b t.order

/-- The live entries of a table: the nodes of all bucket chains, buckets by
increasing index and each chain from its head. -/
def live_entries {K V D : Type} (t : hash_table K V D) : List (hash_node K V) :=
  t.hash_buckets.flatten

/-- The visitor that records every pair it is handed and never signals stop. -/
def record_visit {K V : Type} (key : K) (value : V) (seen : List (hash_node K V)) :
    Int × List (hash_node K V) :=
  (0, seen ++ [⟨value, key⟩])

/-! ## Example configuration -/

/-- An integer comparison callback on natural-number keys. -/
def demo_compare (a b : Nat) (_ : Unit) : Int := (a : Int) - (b : Int)

/-- A hash function keeping the low `order` bits of a natural-number key. -/
def demo_hash (key : Nat) (order : Nat) : Nat := key % 2 ^ order

/-- The table `qb_hashtable_create` returns for the example configuration and
size hint 0. -/
def demo_table : hash_table Nat Nat Unit where
  map := {
    key_compare_func := demo_compare
    key_compare_data := ()
    key_destroy_func := false
    value_destroy_func := false }
  count := 0
  order := 3
  hash_fn := demo_hash
  hash_buckets_len := 8
  hash_buckets := [[], [], [], [], [], [], [], []]

/-! ## Chains -/

/-- The chain left after unlinking the first node whose key compares equal to
`key` (the chain itself when there is none).  A description used in the proofs:
`chain_find` followed by `qb_list_del` at the position found gives this chain
(`chain_find_del`, `chain_find_none_facts`). -/
def chain_without {K V D : Type} (m : qb_map K V D) (key : K) :
    List (hash_node K V) → List (hash_node K V)
  | [] => []
  | n :: rest =>
    if m.key_compare_func n.key key m.key_compare_data = 0 then rest
    else n :: chain_without m key rest

/-- The value of the first node of a chain whose key compares equal to `key`.
A description used in the proofs: it is the value of the node `chain_find`
returns (`chain_find_del`, `chain_find_none_facts`). -/
def chain_value {K V D : Type} (m : qb_map K V D) (key : K) :
    List (hash_node K V) → Option V
  | [] => none
  | n :: rest =>
    if m.key_compare_func n.key key m.key_compare_data = 0 then some n.value
    else chain_value m key rest

/-! ## Effect of the operations on the table -/

/-- The fields fixed at creation agree. -/
def same_config {K V D : Type} (t t1 : hash_table K V D) : Prop :=
  t1.map = t.map ∧ t1.order = t.order ∧ t1.hash_fn = t.hash_fn
    ∧ t1.hash_buckets_len = t.hash_buckets_len

/-! ## Invariants of reachable tables -/

/-- The bucket array has `hash_buckets_len` chains and `count` is the number of
nodes in them. -/
def table_inv {K V D : Type} (t : hash_table K V D) : Prop :=
  t.hash_buckets.length = t.hash_buckets_len ∧ t.count = (live_entries t).length

/-- No chain holds two nodes whose keys compare equal. -/
def chains_unique {K V D : Type} (t : hash_table K V D) : Prop :=
  ∀ chain ∈ t.hash_buckets,
    chain.Pairwise (fun a b => ¬ keys_equal t.map a.key b.key)

/-- Every node sits in the chain whose index is the hash of its key. -/
def chains_placed {K V D : Type} (t : hash_table K V D) : Prop :=
  ∀ i chain, t.hash_buckets[i]? = some chain → ∀ n ∈ chain, t.hash_fn n.key t.order = i

/-! ## Example tables -/

/-- The example table after `put(1, 10)`. -/
def demo_table_1 : hash_table Nat Nat Unit :=
  { demo_table with count := 1, hash_buckets := [[], [⟨10, 1⟩], [], [], [], [], [], []] }

/-- The example table after `put(1, 10)` and `put(9, 90)`, two keys of the same
bucket. -/
def demo_table_2 : hash_table Nat Nat Unit :=
  { demo_table with
    count := 2, hash_buckets := [[], [⟨10, 1⟩, ⟨90, 9⟩], [], [], [], [], [], []] }

/-! ## Early termination of an iteration -/

/-- The visitor `func` instrumented to log every pair it is handed, before
passing on the stop signal of `func`. -/
def logged_visit {K V U : Type} (func : K → V → U → Int × U) (key : K) (value : V)
    (s : List (hash_node K V) × U) : Int × (List (hash_node K V) × U) :=
  ((func key value s.2).1, (s.1 ++ [⟨value, key⟩], (func key value s.2).2))

/-- The shortest leading part of `order` that ends with the first entry on which
the visitor returns nonzero, or the whole of `order` if it never does. -/
def visited_until_stop {K V U : Type} (func : K → V → U → Int × U) :
    List (hash_node K V) → U → List (hash_node K V)
  | [], _ => []
  | n :: rest, u =>
    if (func n.key n.value u).1 ≠ 0 then [n]
    else n :: visited_until_stop func rest (func n.key n.value u).2

/-- The stop signals a visitor returns when handed the entries of a list in
order, each call starting from the state the previous one left. -/
def visit_signals {K V U : Type} (func : K → V → U → Int × U) :
    List (hash_node K V) → U → List Int
  | [], _ => []
  | n :: rest, u => (func n.key n.value u).1 :: visit_signals func rest (func n.key n.value u).2

/-! ## Bucket count chosen at creation -/

/-- Doubling search used by `next_power_of_two`: the first of `p`, `2 p`,
`4 p`, ... that is at least `n`, looking at most `fuel` steps ahead. -/
def next_power_of_two_from (n : Nat) : Nat → Nat → Nat
  | 0, p => p
  | fuel + 1, p => if n ≤ p then p else next_power_of_two_from n fuel (2 * p)

/-- The size hint rounded up to a power of two, in the spec's words: the least
power of two that is not below `n`. -/
def next_power_of_two (n : Nat) : Nat := next_power_of_two_from n n 1

/-- The bucket count the spec states: `max(8, next_power_of_two(sizeHint))`. -/
def spec_bucket_count (sizeHint : Nat) : Nat := max 8 (next_power_of_two sizeHint)

/-! ## Iteration order and the order of the `put` calls

The table never inspects a value, so a value can carry the position of the
`put` call that stored it.  Running a sequence of calls with every value
stamped in this way shows in which order the nodes of a chain were put; erasing
the stamps gives back the run on the plain values. -/

/-- The comparison configuration seen at another value type. -/
def qb_map.retype {K V D : Type} (W : Type) (m : qb_map K V D) : qb_map K W D where
  key_compare_func := m.key_compare_func
  key_compare_data := m.key_compare_data
  key_destroy_func := m.key_destroy_func
  value_destroy_func := m.value_destroy_func

/-- A node with its value replaced by its image under `f`. -/
def hash_node.map_value {K V W : Type} (f : V → W) (n : hash_node K V) : hash_node K W :=
  ⟨f n.value, n.key⟩

/-- The table with every stored value replaced by its image under `f`. -/
def map_values {K V W D : Type} (f : V → W) (t : hash_table K V D) : hash_table K W D where
  map := t.map.retype W
  count := t.count
  order := t.order
  hash_fn := t.hash_fn
  hash_buckets_len := t.hash_buckets_len
  hash_buckets := t.hash_buckets.map (List.map (hash_node.map_value f))

/-- A call with the value of a `put` replaced by its image under `f`. -/
def map_op.map_value {K V W : Type} (f : V → W) : map_op K V → map_op K W
  | map_op.put key value malloc_ok => map_op.put key (f value) malloc_ok
  | map_op.rm key => map_op.rm key

/-- The calls of a sequence with the value of every `put` paired with the
position of the call, counted from `i`. -/
def stamp_ops {K V : Type} : Nat → List (map_op K V) → List (map_op K (V × Nat))
  | _, [] => []
  | i, op :: rest => op.map_value (fun v => (v, i)) :: stamp_ops (i + 1) rest

/-- The chain an operation leaves in the bucket it works on.  A description
used in the proofs, justified by `apply_op_eq`. -/
def op_chain {K V D : Type} (m : qb_map K V D) :
    map_op K V → List (hash_node K V) → List (hash_node K V)
  | map_op.put key value malloc_ok, chain =>
    if malloc_ok = true then qb_list_add_tail ⟨value, key⟩ (chain_without m key chain)
    else chain_without m key chain
  | map_op.rm key, chain => chain_without m key chain

/-- The counter an operation leaves.  A description used in the proofs,
justified by `apply_op_eq`. -/
def op_count {K V D : Type} (m : qb_map K V D) :
    map_op K V → List (hash_node K V) → Nat → Nat
  | map_op.put key _ malloc_ok, chain, count =>
    (if (chain_value m key chain).isSome = true then count - 1 else count)
      + (if malloc_ok = true then 1 else 0)
  | map_op.rm key, chain, count =>
    if (chain_value m key chain).isSome = true then count - 1 else count

/-- Along every chain the stamps increase strictly from the head. -/
def stamps_sorted {K V D : Type} (s : hash_table K (V × Nat) D) : Prop :=
  ∀ chain ∈ s.hash_buckets, chain.Pairwise (fun a b => a.value.2 < b.value.2)

/-- No two live entries carry the same stamp. -/
def stamps_distinct {K V D : Type} (s : hash_table K (V × Nat) D) : Prop :=
  ((live_entries s).map (fun n => n.value.2)).Nodup

/-! ## Example table with destroy notifiers -/

/-- The 32-bit FNV-1a fold of a byte sequence, in the spec's words: start at
`0x811c9dc5` and for each byte in order set `h := ((h xor byte) * 0x01000193)
mod 2 ^ 32`. -/
def fnv1a_fold (bs : List Nat) : Nat :=
  bs.foldl (fun h byte => ((h ^^^ byte) * 0x01000193) % 2 ^ 32) 0x811c9dc5

/-- The reduction of a 32-bit hash to `order` bits, in the spec's words:
`((h >> order) xor h) and (2 ^ order - 1)`. -/
def folded_index (h order : Nat) : Nat :=
  ((h >>> order) ^^^ h) &&& (2 ^ order - 1)

/-- Example key references: a key `k` points to the four bytes of `k` as a
little-endian 32-bit number. -/
def demo_deref (key : Nat) : List Nat :=
  [key % 256, key / 256 % 256, key / 65536 % 256, key / 16777216 % 256]

/-- The table `qb_hashtable_create` returns for the example comparison, size
hint 100 and no hash function (`NULL`), so that `qb_hash_pointer` is used. -/
def demo_pointer_table : hash_table Nat Nat Unit where
  map := {
    key_compare_func := demo_compare
    key_compare_data := ()
    key_destroy_func := false
    value_destroy_func := false }
  count := 0
  order := 7
  hash_fn := fun key order => qb_hash_pointer (demo_deref key) order
  hash_buckets_len := 128
  hash_buckets := List.replicate 128 []

/-! ## Binary digits -/

/-- The number of binary digits of `n` (0 for `n = 0`): the least `e` with
`n < 2 ^ e`, see `bitlength_spec`. -/
def bitlength (n : Nat) : Nat := n.size

/-! ## Iteration with a visitor that calls back into the map

The visitor of `hashtable_foreach` may call `put` and `remove` on the table it
is iterating.  The loop holds two `struct qb_list_head *`: `list`, the node
being handed to the visitor, and `next`, read from `list->next` before the
visitor runs.  Nodes are designated by their position in the chain, so a call
that unlinks a node moves the positions of the nodes behind it; the function
`cursor_after_op` follows the node `next` points to through such a call. -/

/-- Where a `struct qb_list_head *` of the iteration points: at the node at a
position of the chain being walked, at the `list_head` sentinel of the bucket,
or at a node that has been unlinked and freed. -/
inductive list_cursor where
  | node (pos : Nat)
  | head
  | freed

/-- The pointer `list_head.next` of a chain: its first node, or the sentinel
itself when the chain is empty. -/
def chain_start {N : Type} : List N → list_cursor
  | [] => list_cursor.head
  | _ :: _ => list_cursor.node 0

/-- Where the pointer `next` points after the call `op` on the table `t`, while
bucket `i` is being walked.  Both `put` and `remove` unlink the first node of
the bucket of their key whose key compares equal (`hashtable_rm_with_hash`), at
position `q` say: in bucket `i`, the node `next` points to is freed if it is
that node, moves down one position if it is behind it, and stays where it is
otherwise.  The node a `put` appends goes to the tail and moves no other node;
the sentinel never moves. -/
def cursor_after_op {K V D : Type} (t : hash_table K V D) (i : Nat) (next : list_cursor)
    (op : map_op K V) : list_cursor :=
  match next with
  | list_cursor.node n =>
    if t.hash_fn op.key t.order = i then
      match t.hash_buckets[i]? with
      | none => next
      | some chain =>
        match chain_find t.map op.key chain with
        | none => next
        | some (q, _) =>
          if q = n then list_cursor.freed
          else if q < n then list_cursor.node (n - 1)
          else next
    else next
  | list_cursor.head => list_cursor.head
  | list_cursor.freed => list_cursor.freed

/-- The calls a visitor makes on the map, in order, with the pointer `next`
followed through them; `none` when one of the calls indexes outside the bucket
array. -/
def visitor_calls {K V D : Type} (i : Nat) :
    hash_table K V D → list_cursor → List (map_op K V) → Option (hash_table K V D × list_cursor)
  | t, next, [] => some (t, next)
  | t, next, op :: rest =>
    match apply_op t op with
    | none => none
    | some t1 => visitor_calls i t1 (cursor_after_op t i next op) rest

/-- How the inner loop of `hashtable_foreach` over one chain ends: the function
returned from inside the loop, `list` reached the sentinel, the behaviour is
undefined (an index outside the bucket array, or `list` pointing to a freed
node), or the loop is still running when the fuel is used up. -/
inductive chain_walk (K V D U : Type) where
  | stopped (ht : hash_table K V D) (user_data : U)
  | finished (ht : hash_table K V D) (user_data : U)
  | undefined
  | no_return

/-- How a call of `hashtable_foreach` with a visitor that calls back into the
map ends. -/
inductive foreach_result (K V D U : Type) where
  | returned (ht : hash_table K V D) (user_data : U)
  | undefined
  | no_return

/-- The inner loop of `hashtable_foreach` over the chain of bucket `i`, for a
visitor `func` that returns its stop signal, the calls it makes on the map and
the new `user_data`.  `fuel` bounds the number of iterations followed. -/
def foreach_calling_chain {K V D U : Type} (func : K → V → U → Int × List (map_op K V) × U)
    (i : Nat) : Nat → hash_table K V D → list_cursor → U → chain_walk K V D U
  | fuel, t, list, user_data =>
    match list with
    | list_cursor.head => chain_walk.finished t user_data
    | list_cursor.freed => chain_walk.undefined
    | list_cursor.node pos =>
      match fuel with
      | 0 => chain_walk.no_return
      | fuel + 1 =>
        match t.hash_buckets[i]? with
        | none => chain_walk.undefined
        | some chain =>
          match chain[pos]? with
          | none => chain_walk.undefined
          | some hash_node =>
            let next :=
              if pos + 1 < chain.length then list_cursor.node (pos + 1) else list_cursor.head
            let r := func hash_node.key hash_node.value user_data
            match visitor_calls i t next r.2.1 with
            | none => chain_walk.undefined
            | some (t1, next1) =>
              if r.1 ≠ 0 then chain_walk.stopped t1 r.2.2
              else foreach_calling_chain func i fuel t1 next1 r.2.2

/-- The outer loop of `hashtable_foreach` from bucket `i`, with `todo` buckets
left before `i` reaches `hash_buckets_len`, for a visitor that calls back into
the map. -/
def foreach_calling_buckets {K V D U : Type} (func : K → V → U → Int × List (map_op K V) × U)
    (fuel : Nat) : Nat → Nat → hash_table K V D → U → foreach_result K V D U
  | 0, _, t, user_data => foreach_result.returned t user_data
  | todo + 1, i, t, user_data =>
    match t.hash_buckets[i]? with
    | none => foreach_result.undefined
    | some chain =>
      match foreach_calling_chain func i fuel t (chain_start chain) user_data with
      | chain_walk.stopped t1 u1 => foreach_result.returned t1 u1
      | chain_walk.finished t1 u1 => foreach_calling_buckets func fuel todo (i + 1) t1 u1
      | chain_walk.undefined => foreach_result.undefined
      | chain_walk.no_return => foreach_result.no_return

/-- The function `hashtable_foreach` for a visitor that calls back into the
map; `fuel` bounds the number of iterations of each inner loop. -/
def hashtable_foreach_calling {K V D U : Type} (t : hash_table K V D)
    (func : K → V → U → Int × List (map_op K V) × U) (user_data : U) (fuel : Nat) :
    foreach_result K V D U :=
  foreach_calling_buckets func fuel t.hash_buckets_len 0 t user_data

/-- The visitor that removes from the table the entry it has just been handed
(`remove(key)`), records it, and never signals stop. -/
def remove_visit {K V : Type} (key : K) (value : V) (seen : List (hash_node K V)) :
    Int × List (map_op K V) × List (hash_node K V) :=
  (0, [map_op.rm key], seen ++ [⟨value, key⟩])

/-- A visitor that does not touch the table, as a visitor that makes no call
on the map. -/
def quiet_visit {K V U : Type} (func : K → V → U → Int × U) (key : K) (value : V)
    (user_data : U) : Int × List (map_op K V) × U :=
  ((func key value user_data).1, [], (func key value user_data).2)

/-! # Theorems -/

/-! ## Chains -/

theorem chain_find_none_iff {K V D : Type} (m : qb_map K V D) (key : K)
    (chain : List (hash_node K V)) :
    chain_find m key chain = none ↔ ∀ n ∈ chain, ¬ keys_equal m n.key key := by
  induction chain with
  | nil => simp [chain_find]
  | cons a rest ih =>
    by_cases h : m.key_compare_func a.key key m.key_compare_data = 0
    · simp [chain_find, h, keys_equal]
    · cases hf : chain_find m key rest with
      | none => simpa [chain_find, h, hf, keys_equal] using ih.mp hf
      | some p =>
        have : ¬ ∀ n ∈ rest, ¬ keys_equal m n.key key := fun hall => by
          rw [ih.mpr hall] at hf; cases hf
        simp only [chain_find, h, hf, if_false, List.mem_cons, forall_eq_or_imp]
        constructor
        · intro h0; cases h0
        · intro h1; exact absurd h1.2 this

theorem chain_find_del {K V D : Type} (m : qb_map K V D) (key : K)
    (chain : List (hash_node K V)) (pos : Nat) (n : hash_node K V)
    (h : chain_find m key chain = some (pos, n)) :
    qb_list_del pos chain = chain_without m key chain ∧ chain_value m key chain = some n.value
      ∧ keys_equal m n.key key ∧ n ∈ chain := by
  induction chain generalizing pos with
  | nil => simp [chain_find] at h
  | cons a rest ih =>
    by_cases hc : m.key_compare_func a.key key m.key_compare_data = 0
    · simp only [chain_find, hc, if_true, Option.some.injEq, Prod.mk.injEq] at h
      obtain ⟨rfl, rfl⟩ := h
      simp [qb_list_del, chain_without, chain_value, hc, keys_equal]
    · cases hf : chain_find m key rest with
      | none => simp [chain_find, hc, hf] at h
      | some p =>
        obtain ⟨q, x⟩ := p
        simp only [chain_find, hc, hf, if_false, Option.some.injEq, Prod.mk.injEq] at h
        obtain ⟨rfl, rfl⟩ := h
        obtain ⟨h1, h2, h3, h4⟩ := ih q hf
        refine ⟨?_, ?_, h3, List.mem_cons_of_mem _ h4⟩
        · simp only [qb_list_del] at h1
          simp [qb_list_del, chain_without, hc, h1]
        · simp [chain_value, hc, h2]

theorem chain_find_none_facts {K V D : Type} (m : qb_map K V D) (key : K)
    (chain : List (hash_node K V)) (h : chain_find m key chain = none) :
    chain_without m key chain = chain ∧ chain_value m key chain = none := by
  induction chain with
  | nil => simp [chain_without, chain_value]
  | cons a rest ih =>
    by_cases hc : m.key_compare_func a.key key m.key_compare_data = 0
    · simp [chain_find, hc] at h
    · cases hf : chain_find m key rest with
      | none =>
        obtain ⟨h1, h2⟩ := ih hf
        simp [chain_without, chain_value, hc, h1, h2]
      | some p => simp [chain_find, hc, hf] at h

theorem chain_value_none_iff {K V D : Type} (m : qb_map K V D) (key : K)
    (chain : List (hash_node K V)) :
    chain_value m key chain = none ↔ ∀ n ∈ chain, ¬ keys_equal m n.key key := by
  induction chain with
  | nil => simp [chain_value]
  | cons a rest ih =>
    by_cases hc : m.key_compare_func a.key key m.key_compare_data = 0
    · simp [chain_value, hc, keys_equal]
    · simp [chain_value, hc, keys_equal, ih]

theorem chain_without_absent {K V D : Type} (m : qb_map K V D) (key : K)
    (chain : List (hash_node K V)) (h : ∀ n ∈ chain, ¬ keys_equal m n.key key) :
    chain_without m key chain = chain :=
  (chain_find_none_facts m key chain ((chain_find_none_iff m key chain).mpr h)).1

theorem chain_without_length {K V D : Type} (m : qb_map K V D) (key : K)
    (chain : List (hash_node K V)) (n : hash_node K V) (hn : n ∈ chain)
    (h : keys_equal m n.key key) :
    (chain_without m key chain).length + 1 = chain.length := by
  induction chain with
  | nil => cases hn
  | cons a rest ih =>
    by_cases hc : m.key_compare_func a.key key m.key_compare_data = 0
    · simp [chain_without, hc]
    · have hr : n ∈ rest := by
        rcases List.mem_cons.mp hn with rfl | h1
        · exact absurd h hc
        · exact h1
      simp [chain_without, hc, ih hr]

theorem chain_without_sublist {K V D : Type} (m : qb_map K V D) (key : K)
    (chain : List (hash_node K V)) : List.Sublist (chain_without m key chain) chain := by
  induction chain with
  | nil => simp [chain_without]
  | cons a rest ih =>
    by_cases hc : m.key_compare_func a.key key m.key_compare_data = 0
    · simp [chain_without, hc]
    · simpa [chain_without, hc] using ih

/-- In a chain without two equal keys, nothing equal to `key` is left once the
first match is unlinked. -/
theorem chain_without_clean {K V D : Type} (m : qb_map K V D) (he : compare_equivalence m)
    (key : K) (chain : List (hash_node K V))
    (hu : chain.Pairwise (fun a b => ¬ keys_equal m a.key b.key)) :
    ∀ n ∈ chain_without m key chain, ¬ keys_equal m n.key key := by
  induction chain with
  | nil => simp [chain_without]
  | cons a rest ih =>
    rw [List.pairwise_cons] at hu
    by_cases hc : m.key_compare_func a.key key m.key_compare_data = 0
    · intro n hn hk
      simp only [chain_without, hc, if_true] at hn
      exact hu.1 n hn (he.trans _ _ _ hc (he.symm _ _ hk))
    · intro n hn
      simp only [chain_without, hc, if_false, List.mem_cons] at hn
      rcases hn with rfl | hn
      · exact hc
      · exact ih hu.2 n hn

theorem chain_value_append_last {K V D : Type} (m : qb_map K V D) (key : K)
    (chain : List (hash_node K V)) (node : hash_node K V)
    (h : ∀ n ∈ chain, ¬ keys_equal m n.key key) (hk : keys_equal m node.key key) :
    chain_value m key (chain ++ [node]) = some node.value := by
  induction chain with
  | nil => simpa [chain_value, keys_equal] using hk
  | cons a rest ih =>
    have ha : ¬ m.key_compare_func a.key key m.key_compare_data = 0 :=
      h a (List.mem_cons_self _ _)
    simpa [chain_value, ha] using ih (fun n hn => h n (List.mem_cons_of_mem _ hn))

/-- Appending a node whose key differs from `key` does not change what the
traversal for `key` finds. -/
theorem chain_value_append_other {K V D : Type} (m : qb_map K V D) (key : K)
    (chain : List (hash_node K V)) (node : hash_node K V)
    (hk : ¬ keys_equal m node.key key) :
    chain_value m key (chain ++ [node]) = chain_value m key chain := by
  induction chain with
  | nil => simpa [chain_value, keys_equal] using hk
  | cons a rest ih =>
    by_cases hc : m.key_compare_func a.key key m.key_compare_data = 0
    · simp [chain_value, hc]
    · simp [chain_value, hc, ih]

/-- Unlinking the first node equal to `other` does not change what the
traversal for a key different from `other` finds. -/
theorem chain_value_without_other {K V D : Type} (m : qb_map K V D)
    (he : compare_equivalence m) (key other : K) (chain : List (hash_node K V))
    (hk : ¬ keys_equal m other key) :
    chain_value m key (chain_without m other chain) = chain_value m key chain := by
  induction chain with
  | nil => simp [chain_without]
  | cons a rest ih =>
    by_cases hc : m.key_compare_func a.key other m.key_compare_data = 0
    · have ha : ¬ m.key_compare_func a.key key m.key_compare_data = 0 := fun h =>
        hk (he.trans _ _ _ (he.symm _ _ hc) h)
      simp [chain_without, chain_value, hc, ha]
    · by_cases ha : m.key_compare_func a.key key m.key_compare_data = 0
      · simp [chain_without, chain_value, hc, ha]
      · simp [chain_without, chain_value, hc, ha, ih]

/-! ## Effect of the operations on the table -/

theorem bucket_split {N : Type} (l : List (List N)) (i : Nat) (c : List N)
    (h : l[i]? = some c) :
    ∃ pre post, l = pre ++ c :: post ∧ pre.length = i
      ∧ ∀ c1, l.set i c1 = pre ++ c1 :: post := by
  induction l generalizing i with
  | nil => simp at h
  | cons a rest ih =>
    cases i with
    | zero =>
      simp only [List.getElem?_cons_zero, Option.some.injEq] at h
      subst h
      exact ⟨[], rest, rfl, rfl, fun _ => rfl⟩
    | succ j =>
      simp only [List.getElem?_cons_succ] at h
      obtain ⟨pre, post, h1, h2, h3⟩ := ih j h
      refine ⟨a :: pre, post, by simp [h1], by simp [h2], fun c1 => ?_⟩
      simp [List.set_cons_succ, h3 c1]

theorem bucket_mem {N : Type} {l : List (List N)} {i : Nat} {c : List N}
    (h : l[i]? = some c) : c ∈ l :=
  List.mem_iff_getElem?.mpr ⟨i, h⟩

theorem flatten_length_set {N : Type} (l : List (List N)) (i : Nat) (c c1 : List N)
    (h : l[i]? = some c) :
    (l.set i c1).flatten.length + c.length = l.flatten.length + c1.length := by
  obtain ⟨pre, post, h1, -, h3⟩ := bucket_split l i c h
  rw [h3 c1, h1]
  simp only [List.flatten_append, List.flatten_cons, List.length_append]
  omega

theorem rm_with_hash_spec {K V D : Type} (t : hash_table K V D) (key : K) (i : Nat)
    (r : rm_result K V D) (h : hashtable_rm_with_hash t key i = some r) :
    ∃ chain, t.hash_buckets[i]? = some chain ∧ same_config t r.ht
      ∧ r.ht.hash_buckets = t.hash_buckets.set i (chain_without t.map key chain)
      ∧ (((∃ n ∈ chain, keys_equal t.map n.key key) ∧ r.ret = QB_TRUE
            ∧ r.ht.count = t.count - 1)
          ∨ ((∀ n ∈ chain, ¬ keys_equal t.map n.key key) ∧ r.ret = QB_FALSE ∧ r.ht = t)) := by
  unfold hashtable_rm_with_hash at h
  cases hb : t.hash_buckets[i]? with
  | none => simp [hb] at h
  | some chain =>
    refine ⟨chain, rfl, ?_⟩
    cases hf : chain_find t.map key chain with
    | none =>
      simp only [hb, hf, Option.some.injEq] at h
      subst h
      obtain ⟨h1, -⟩ := chain_find_none_facts _ _ _ hf
      refine ⟨⟨rfl, rfl, rfl, rfl⟩, ?_, Or.inr ⟨(chain_find_none_iff _ _ _).mp hf, rfl, rfl⟩⟩
      obtain ⟨pre, post, e1, -, e3⟩ := bucket_split _ _ _ hb
      simp only [h1, e3 chain]
      exact e1
    | some p =>
      obtain ⟨pos, n⟩ := p
      simp only [hb, hf, Option.some.injEq] at h
      subst h
      obtain ⟨h1, -, h3, h4⟩ := chain_find_del _ _ _ _ _ hf
      exact ⟨⟨rfl, rfl, rfl, rfl⟩, by simp only [h1], Or.inl ⟨⟨n, h4, h3⟩, rfl, rfl⟩⟩

theorem rm_with_hash_defined {K V D : Type} (t : hash_table K V D) (key : K) (i : Nat)
    (hi : i < t.hash_buckets.length) : ∃ r, hashtable_rm_with_hash t key i = some r := by
  unfold hashtable_rm_with_hash
  rw [List.getElem?_eq_getElem hi]
  cases hf : chain_find t.map key t.hash_buckets[i] with
  | none => simp only [hf]; exact ⟨_, rfl⟩
  | some p => simp only [hf]; exact ⟨_, rfl⟩

theorem put_spec {K V D : Type} (t : hash_table K V D) (key : K) (value : V)
    (malloc_ok : Bool) (r : put_result K V D)
    (h : hashtable_put t key value malloc_ok = some r) :
    ∃ chain, t.hash_buckets[t.hash_fn key t.order]? = some chain ∧ same_config t r.ht
      ∧ r.ht.hash_buckets = t.hash_buckets.set (t.hash_fn key t.order)
          (if malloc_ok = true then qb_list_add_tail ⟨value, key⟩ (chain_without t.map key chain)
            else chain_without t.map key chain)
      ∧ (((∃ n ∈ chain, keys_equal t.map n.key key)
            ∧ r.ht.count = t.count - 1 + (if malloc_ok = true then 1 else 0))
          ∨ ((∀ n ∈ chain, ¬ keys_equal t.map n.key key)
            ∧ r.ht.count = t.count + (if malloc_ok = true then 1 else 0))) := by
  unfold hashtable_put at h
  cases hr : hashtable_rm_with_hash t key (t.hash_fn key t.order) with
  | none => simp [hr] at h
  | some r1 =>
    obtain ⟨chain, hb, hc, hbs, hcount⟩ := rm_with_hash_spec _ _ _ _ hr
    refine ⟨chain, hb, ?_⟩
    have hlen : t.hash_fn key t.order < t.hash_buckets.length :=
      (List.getElem?_eq_some.mp hb).1
    cases malloc_ok with
    | false =>
      simp only [hr, if_true, Option.some.injEq] at h
      subst h
      refine ⟨hc, by simpa using hbs, ?_⟩
      rcases hcount with ⟨h1, -, h3⟩ | ⟨h1, -, h3⟩
      · exact Or.inl ⟨h1, by simpa using h3⟩
      · exact Or.inr ⟨h1, by simp [h3]⟩
    | true =>
      have hget : r1.ht.hash_buckets[t.hash_fn key t.order]?
          = some (chain_without t.map key chain) := by
        rw [hbs, List.getElem?_set_self hlen]
      simp only [hr, hget, Bool.true_eq_false, if_false, Option.some.injEq] at h
      subst h
      refine ⟨hc, by simp [hbs], ?_⟩
      rcases hcount with ⟨h1, -, h3⟩ | ⟨h1, -, h3⟩
      · exact Or.inl ⟨h1, by simp [h3]⟩
      · exact Or.inr ⟨h1, by simp [h3]⟩

theorem put_defined {K V D : Type} (t : hash_table K V D) (key : K) (value : V)
    (malloc_ok : Bool) (hi : t.hash_fn key t.order < t.hash_buckets.length) :
    ∃ r, hashtable_put t key value malloc_ok = some r := by
  obtain ⟨r1, hr⟩ := rm_with_hash_defined t key _ hi
  obtain ⟨chain, hb, -, hbs, -⟩ := rm_with_hash_spec _ _ _ _ hr
  unfold hashtable_put
  cases malloc_ok with
  | false => simp only [hr, if_true]; exact ⟨_, rfl⟩
  | true =>
    have hget : r1.ht.hash_buckets[t.hash_fn key t.order]?
        = some (chain_without t.map key chain) := by
      rw [hbs, List.getElem?_set_self hi]
    simp only [hr, hget, Bool.true_eq_false, if_false]
    exact ⟨_, rfl⟩

theorem get_eq {K V D : Type} (t : hash_table K V D) (key : K) :
    hashtable_get t key
      = (t.hash_buckets[t.hash_fn key t.order]?).map (chain_value t.map key) := by
  unfold hashtable_get
  cases hb : t.hash_buckets[t.hash_fn key t.order]? with
  | none => simp [hb]
  | some chain =>
    cases hf : chain_find t.map key chain with
    | none => simp [hb, hf, (chain_find_none_facts _ _ _ hf).2]
    | some p =>
      obtain ⟨pos, n⟩ := p
      simp [hb, hf, (chain_find_del _ _ _ _ _ hf).2.1]

/-! ## Invariants of reachable tables -/

theorem create_returned {K V D : Type} (deref : K → List Nat)
    (key_compare_func : K → K → D → Int) (key_compare_data : D)
    (key_destroy_func value_destroy_func : Bool) (max_size : Nat)
    (hash_fn : Option (K → Nat → Nat)) (calloc_ok : Bool) (fuel : Nat) (t : hash_table K V D)
    (h : qb_hashtable_create deref key_compare_func key_compare_data key_destroy_func
      value_destroy_func max_size hash_fn calloc_ok fuel = create_result.returned t) :
    ∃ i, order_loop fuel 0 (to_int32 max_size) = some i ∧ t.order = QB_MAX i 3
      ∧ t.count = 0 ∧ t.hash_buckets_len = (1 <<< t.order) % 2 ^ 32
      ∧ t.hash_buckets = List.replicate t.hash_buckets_len []
      ∧ t.map.key_compare_func = key_compare_func := by
  unfold qb_hashtable_create at h
  cases ho : order_loop fuel 0 (to_int32 max_size) with
  | none => simp [ho] at h
  | some i =>
    cases calloc_ok with
    | false => simp [ho] at h
    | true =>
      simp only [ho, Bool.true_eq_false, if_false, create_result.returned.injEq] at h
      subst h
      exact ⟨i, rfl, rfl, rfl, rfl, rfl, rfl⟩

theorem table_inv_rm {K V D : Type} (t : hash_table K V D) (key : K) (i : Nat)
    (r : rm_result K V D) (hinv : table_inv t)
    (h : hashtable_rm_with_hash t key i = some r) : table_inv r.ht := by
  obtain ⟨chain, hb, hc, hbs, hcount⟩ := rm_with_hash_spec _ _ _ _ h
  rcases hcount with ⟨⟨n, hn, hk⟩, -, h3⟩ | ⟨-, -, h3⟩
  · have hl := flatten_length_set _ _ _ (chain_without t.map key chain) hb
    have hw := chain_without_length _ _ _ n hn hk
    have h2 : t.count = t.hash_buckets.flatten.length := hinv.2
    refine ⟨by rw [hbs, List.length_set, hc.2.2.2, hinv.1], ?_⟩
    show r.ht.count = r.ht.hash_buckets.flatten.length
    rw [h3, hbs]
    omega
  · rw [h3]; exact hinv

theorem table_inv_put {K V D : Type} (t : hash_table K V D) (key : K) (value : V)
    (malloc_ok : Bool) (r : put_result K V D) (hinv : table_inv t)
    (h : hashtable_put t key value malloc_ok = some r) : table_inv r.ht := by
  obtain ⟨chain, hb, hc, hbs, hcount⟩ := put_spec _ _ _ _ _ h
  have hl := flatten_length_set _ _ _
    (if malloc_ok = true then qb_list_add_tail ⟨value, key⟩ (chain_without t.map key chain)
      else chain_without t.map key chain) hb
  have h2 : t.count = t.hash_buckets.flatten.length := hinv.2
  refine ⟨by rw [hbs, List.length_set, hc.2.2.2, hinv.1], ?_⟩
  show r.ht.count = r.ht.hash_buckets.flatten.length
  rw [hbs]
  rcases hcount with ⟨⟨n, hn, hk⟩, h3⟩ | ⟨h1, h3⟩
  · have hw := chain_without_length _ _ _ n hn hk
    have hle := flatten_length_set _ _ _ [] hb
    simp only [List.length_nil] at hle
    cases malloc_ok
    · simp only [Bool.false_eq_true, if_false] at hl h3 ⊢
      omega
    · simp only [if_true, qb_list_add_tail, List.length_append, List.length_singleton]
        at hl h3 ⊢
      omega
  · have hw := chain_without_absent _ _ _ h1
    rw [hw] at hl ⊢
    cases malloc_ok
    · simp only [Bool.false_eq_true, if_false] at hl h3 ⊢
      omega
    · simp only [if_true, qb_list_add_tail, List.length_append, List.length_singleton]
        at hl h3 ⊢
      omega

theorem reachable_inv {K V D : Type} (t : hash_table K V D) (h : Reachable t) :
    table_inv t := by
  induction h with
  | create deref cmp data kd vd max_size hash_fn fuel t h =>
    obtain ⟨i, -, -, h3, -, h5, -⟩ := create_returned _ _ _ _ _ _ _ _ _ _ h
    refine ⟨by rw [h5, List.length_replicate], ?_⟩
    unfold live_entries
    rw [h3, h5, List.flatten_replicate_nil]
    rfl
  | put t key value malloc_ok r _ h ih => exact table_inv_put _ _ _ _ _ ih h
  | rm t key r _ h ih => exact table_inv_rm _ _ _ _ ih h

theorem chain_after_put_unique {K V D : Type} (m : qb_map K V D) (he : compare_equivalence m)
    (key : K) (value : V) (malloc_ok : Bool) (chain : List (hash_node K V))
    (hu : chain.Pairwise (fun a b => ¬ keys_equal m a.key b.key)) :
    (if malloc_ok = true then qb_list_add_tail ⟨value, key⟩ (chain_without m key chain)
      else chain_without m key chain).Pairwise (fun a b => ¬ keys_equal m a.key b.key) := by
  have hs := hu.sublist (chain_without_sublist m key chain)
  cases malloc_ok with
  | false => simpa using hs
  | true =>
    simp only [if_true, qb_list_add_tail, List.pairwise_append]
    refine ⟨hs, List.pairwise_singleton _ _, fun a ha b hb => ?_⟩
    rw [List.mem_singleton] at hb
    subst hb
    exact chain_without_clean m he key chain hu a ha

theorem chains_unique_rm {K V D : Type} (t : hash_table K V D) (key : K) (i : Nat)
    (r : rm_result K V D) (hu : chains_unique t)
    (h : hashtable_rm_with_hash t key i = some r) : chains_unique r.ht := by
  obtain ⟨chain, hb, hc, hbs, -⟩ := rm_with_hash_spec _ _ _ _ h
  intro c hcmem
  rw [hc.1]
  rw [hbs] at hcmem
  rcases List.mem_or_eq_of_mem_set hcmem with h1 | h1
  · exact hu c h1
  · rw [h1]
    exact (hu chain (bucket_mem hb)).sublist (chain_without_sublist _ _ _)

theorem chains_unique_put {K V D : Type} (t : hash_table K V D) (key : K) (value : V)
    (malloc_ok : Bool) (r : put_result K V D) (he : compare_equivalence t.map)
    (hu : chains_unique t) (h : hashtable_put t key value malloc_ok = some r) :
    chains_unique r.ht := by
  obtain ⟨chain, hb, hc, hbs, -⟩ := put_spec _ _ _ _ _ h
  intro c hcmem
  rw [hc.1]
  rw [hbs] at hcmem
  rcases List.mem_or_eq_of_mem_set hcmem with h1 | h1
  · exact hu c h1
  · rw [h1]
    exact chain_after_put_unique _ he _ _ _ _ (hu chain (bucket_mem hb))

theorem chains_placed_rm {K V D : Type} (t : hash_table K V D) (key : K) (i : Nat)
    (r : rm_result K V D) (hp : chains_placed t)
    (h : hashtable_rm_with_hash t key i = some r) : chains_placed r.ht := by
  obtain ⟨chain, hb, hc, hbs, -⟩ := rm_with_hash_spec _ _ _ _ h
  intro j c hj n hn
  rw [hc.2.2.1, hc.2.1]
  rw [hbs, List.getElem?_set] at hj
  by_cases hij : i = j
  · subst hij
    have hlen : i < t.hash_buckets.length := (List.getElem?_eq_some.mp hb).1
    simp only [if_true, hlen, Option.some.injEq] at hj
    subst hj
    exact hp i chain hb n ((chain_without_sublist _ _ _).subset hn)
  · simp only [hij, if_false] at hj
    exact hp j c hj n hn

theorem chains_placed_put {K V D : Type} (t : hash_table K V D) (key : K) (value : V)
    (malloc_ok : Bool) (r : put_result K V D) (hp : chains_placed t)
    (h : hashtable_put t key value malloc_ok = some r) : chains_placed r.ht := by
  obtain ⟨chain, hb, hc, hbs, -⟩ := put_spec _ _ _ _ _ h
  intro j c hj n hn
  rw [hc.2.2.1, hc.2.1]
  rw [hbs, List.getElem?_set] at hj
  by_cases hij : t.hash_fn key t.order = j
  · have hlen : t.hash_fn key t.order < t.hash_buckets.length :=
      (List.getElem?_eq_some.mp hb).1
    simp only [hij, if_true, hij ▸ hlen, Option.some.injEq] at hj
    subst hj
    have hold : ∀ x ∈ chain_without t.map key chain, t.hash_fn x.key t.order = j := fun x hx =>
      hp j chain (hij ▸ hb) x ((chain_without_sublist _ _ _).subset hx)
    cases malloc_ok with
    | false => exact hold n (by simpa using hn)
    | true =>
      simp only [if_true, qb_list_add_tail, List.mem_append, List.mem_singleton] at hn
      rcases hn with h1 | h1
      · exact hold n h1
      · rw [h1]; exact hij
  · simp only [hij, if_false] at hj
    exact hp j c hj n hn

theorem reachable_placed {K V D : Type} (t : hash_table K V D) (h : Reachable t) :
    chains_placed t := by
  induction h with
  | create deref cmp data kd vd max_size hash_fn fuel t h =>
    obtain ⟨i, -, -, -, -, h5, -⟩ := create_returned _ _ _ _ _ _ _ _ _ _ h
    intro j c hj n hn
    rw [h5, List.getElem?_replicate] at hj
    split at hj
    · simp only [Option.some.injEq] at hj
      subst hj
      cases hn
    · cases hj
  | put t key value malloc_ok r _ h ih => exact chains_placed_put _ _ _ _ _ ih h
  | rm t key r _ h ih => exact chains_placed_rm _ _ _ _ ih h

theorem reachable_unique {K V D : Type} (t : hash_table K V D) (h : Reachable t)
    (he : compare_equivalence t.map) : chains_unique t := by
  induction h with
  | create deref cmp data kd vd max_size hash_fn fuel t h =>
    obtain ⟨i, -, -, -, -, h5, -⟩ := create_returned _ _ _ _ _ _ _ _ _ _ h
    intro c hc
    rw [h5] at hc
    rw [(List.mem_replicate.mp hc).2]
    exact List.Pairwise.nil
  | put t key value malloc_ok r _ h ih =>
    have hm : r.ht.map = t.map := (put_spec _ _ _ _ _ h).choose_spec.2.1.1
    rw [hm] at he
    exact chains_unique_put _ _ _ _ _ he (ih he) h
  | rm t key r _ h ih =>
    have hm : r.ht.map = t.map := (rm_with_hash_spec _ _ _ _ h).choose_spec.2.1.1
    rw [hm] at he
    exact chains_unique_rm _ _ _ _ (ih he) h

/-! ## Lookups after an operation -/

theorem get_after_put_same {K V D : Type} (t : hash_table K V D) (key : K) (value : V)
    (r : put_result K V D) (he : compare_equivalence t.map) (hu : chains_unique t)
    (h : hashtable_put t key value true = some r) :
    hashtable_get r.ht key = some (some value) := by
  obtain ⟨chain, hb, hc, hbs, -⟩ := put_spec _ _ _ _ _ h
  have hlen : t.hash_fn key t.order < t.hash_buckets.length := (List.getElem?_eq_some.mp hb).1
  rw [get_eq, hc.1, hc.2.1, hc.2.2.1, hbs, List.getElem?_set_self hlen]
  simp only [if_true, qb_list_add_tail, Option.map_some']
  rw [chain_value_append_last t.map key _ ⟨value, key⟩
    (chain_without_clean _ he _ _ (hu chain (bucket_mem hb))) (he.refl key)]

theorem get_after_put_other {K V D : Type} (t : hash_table K V D) (key other : K) (value : V)
    (malloc_ok : Bool) (r : put_result K V D) (he : compare_equivalence t.map)
    (hk : ¬ keys_equal t.map other key)
    (h : hashtable_put t other value malloc_ok = some r) :
    hashtable_get r.ht key = hashtable_get t key := by
  obtain ⟨chain, hb, hc, hbs, -⟩ := put_spec _ _ _ _ _ h
  have hlen : t.hash_fn other t.order < t.hash_buckets.length :=
    (List.getElem?_eq_some.mp hb).1
  rw [get_eq, get_eq, hc.1, hc.2.1, hc.2.2.1, hbs]
  by_cases hij : t.hash_fn other t.order = t.hash_fn key t.order
  · rw [← hij, List.getElem?_set_self hlen, hb]
    simp only [Option.map_some', Option.some.injEq]
    cases malloc_ok with
    | false => simpa using chain_value_without_other t.map he key other chain hk
    | true =>
      simp only [if_true, qb_list_add_tail]
      rw [chain_value_append_other t.map key _ ⟨value, other⟩ hk]
      exact chain_value_without_other t.map he key other chain hk
  · rw [List.getElem?_set_ne hij]

theorem get_after_rm_other {K V D : Type} (t : hash_table K V D) (key other : K)
    (r : rm_result K V D) (he : compare_equivalence t.map)
    (hk : ¬ keys_equal t.map other key) (h : hashtable_rm t other = some r) :
    hashtable_get r.ht key = hashtable_get t key := by
  obtain ⟨chain, hb, hc, hbs, -⟩ := rm_with_hash_spec _ _ _ _ h
  have hlen : t.hash_fn other t.order < t.hash_buckets.length :=
    (List.getElem?_eq_some.mp hb).1
  rw [get_eq, get_eq, hc.1, hc.2.1, hc.2.2.1, hbs]
  by_cases hij : t.hash_fn other t.order = t.hash_fn key t.order
  · rw [← hij, List.getElem?_set_self hlen, hb]
    simp only [Option.map_some', Option.some.injEq]
    exact chain_value_without_other t.map he key other chain hk
  · rw [List.getElem?_set_ne hij]

theorem get_after_rm_same {K V D : Type} (t : hash_table K V D) (key : K)
    (r : rm_result K V D) (he : compare_equivalence t.map) (hu : chains_unique t)
    (h : hashtable_rm t key = some r) : hashtable_get r.ht key = some none := by
  obtain ⟨chain, hb, hc, hbs, -⟩ := rm_with_hash_spec _ _ _ _ h
  have hlen : t.hash_fn key t.order < t.hash_buckets.length := (List.getElem?_eq_some.mp hb).1
  rw [get_eq, hc.1, hc.2.1, hc.2.2.1, hbs, List.getElem?_set_self hlen]
  simp only [Option.map_some', Option.some.injEq]
  exact (chain_value_none_iff _ _ _).mpr
    (chain_without_clean _ he _ _ (hu chain (bucket_mem hb)))

/-! ## Sequences of calls -/

theorem apply_op_reachable {K V D : Type} (t t1 : hash_table K V D) (op : map_op K V)
    (hr : Reachable t) (h : apply_op t op = some t1) : Reachable t1 := by
  cases op with
  | put key value malloc_ok =>
    simp only [apply_op, Option.map_eq_some'] at h
    obtain ⟨r, h1, rfl⟩ := h
    exact Reachable.put t key value malloc_ok r hr h1
  | rm key =>
    simp only [apply_op, Option.map_eq_some'] at h
    obtain ⟨r, h1, rfl⟩ := h
    exact Reachable.rm t key r hr h1

theorem apply_op_config {K V D : Type} (t t1 : hash_table K V D) (op : map_op K V)
    (h : apply_op t op = some t1) : same_config t t1 := by
  cases op with
  | put key value malloc_ok =>
    simp only [apply_op, Option.map_eq_some'] at h
    obtain ⟨r, h1, rfl⟩ := h
    exact (put_spec _ _ _ _ _ h1).choose_spec.2.1
  | rm key =>
    simp only [apply_op, Option.map_eq_some'] at h
    obtain ⟨r, h1, rfl⟩ := h
    exact (rm_with_hash_spec _ _ _ _ h1).choose_spec.2.1

theorem apply_op_defined {K V D : Type} (t : hash_table K V D) (op : map_op K V)
    (hlen : t.hash_buckets.length = t.hash_buckets_len) (hrange : hash_in_range t) :
    ∃ t1, apply_op t op = some t1 := by
  cases op with
  | put key value malloc_ok =>
    obtain ⟨r, h⟩ := put_defined t key value malloc_ok (hlen ▸ hrange key)
    exact ⟨r.ht, by simp [apply_op, h]⟩
  | rm key =>
    obtain ⟨r, h⟩ := rm_with_hash_defined t key _ (hlen ▸ hrange key)
    exact ⟨r.ht, by simp [apply_op, hashtable_rm, h]⟩

theorem apply_ops_reachable {K V D : Type} (ops : List (map_op K V)) (t t1 : hash_table K V D)
    (hr : Reachable t) (h : apply_ops t ops = some t1) : Reachable t1 := by
  induction ops generalizing t with
  | nil =>
    simp only [apply_ops, Option.some.injEq] at h
    exact h ▸ hr
  | cons op rest ih =>
    simp only [apply_ops] at h
    cases h1 : apply_op t op with
    | none => simp [h1] at h
    | some t2 =>
      simp only [h1] at h
      exact ih t2 (apply_op_reachable _ _ _ hr h1) h

/-- A lookup is not affected by calls about keys that compare unequal to the
looked-up key, and those calls are all defined. -/
theorem get_stable {K V D : Type} (ops : List (map_op K V)) (t : hash_table K V D)
    (hr : Reachable t) (he : compare_equivalence t.map) (hrange : hash_in_range t) (key : K)
    (hops : ∀ op ∈ ops, ¬ keys_equal t.map op.key key) :
    ∃ t2, apply_ops t ops = some t2 ∧ hashtable_get t2 key = hashtable_get t key := by
  induction ops generalizing t with
  | nil => exact ⟨t, rfl, rfl⟩
  | cons op rest ih =>
    obtain ⟨t1, h1⟩ := apply_op_defined t op (reachable_inv t hr).1 hrange
    have hc := apply_op_config _ _ _ h1
    have hk : ¬ keys_equal t.map op.key key := hops op (List.mem_cons_self _ _)
    have hget : hashtable_get t1 key = hashtable_get t key := by
      cases op with
      | put k v ok =>
        simp only [apply_op, Option.map_eq_some'] at h1
        obtain ⟨r, h2, rfl⟩ := h1
        exact get_after_put_other t key k v ok r he hk h2
      | rm k =>
        simp only [apply_op, Option.map_eq_some'] at h1
        obtain ⟨r, h2, rfl⟩ := h1
        exact get_after_rm_other t key k r he hk h2
    have he1 : compare_equivalence t1.map := hc.1 ▸ he
    have hrange1 : hash_in_range t1 := by
      intro k
      rw [hc.2.2.1, hc.2.1, hc.2.2.2]
      exact hrange k
    obtain ⟨t2, h3, h4⟩ := ih t1 (apply_op_reachable _ _ _ hr h1) he1 hrange1
      (fun o ho => hc.1 ▸ hops o (List.mem_cons_of_mem _ ho))
    exact ⟨t2, by simp only [apply_ops, h1, h3], h4.trans hget⟩

/-! ## Iteration -/

theorem foreach_chain_append {K V U : Type} (func : K → V → U → Int × U)
    (l1 l2 : List (hash_node K V)) (u : U) :
    foreach_chain func (l1 ++ l2) u
      = if (foreach_chain func l1 u).1 = true then foreach_chain func l1 u
        else foreach_chain func l2 (foreach_chain func l1 u).2 := by
  induction l1 generalizing u with
  | nil => simp [foreach_chain]
  | cons a rest ih =>
    by_cases h : (func a.key a.value u).1 = 0
    · simp [foreach_chain, h, ih]
    · simp [foreach_chain, h]

theorem foreach_buckets_eq {K V D U : Type} (t : hash_table K V D)
    (func : K → V → U → Int × U) (todo i : Nat) (u : U)
    (h : i + todo = t.hash_buckets.length) :
    foreach_buckets t func todo i u
      = some (foreach_chain func (t.hash_buckets.drop i).flatten u).2 := by
  induction todo generalizing i u with
  | zero =>
    have : t.hash_buckets.drop i = [] := List.drop_eq_nil_of_le (by omega)
    simp [foreach_buckets, this, foreach_chain]
  | succ n ih =>
    have hi : i < t.hash_buckets.length := by omega
    have hd : t.hash_buckets.drop i = t.hash_buckets[i] :: t.hash_buckets.drop (i + 1) :=
      List.drop_eq_getElem_cons hi
    simp only [foreach_buckets, List.getElem?_eq_getElem hi, hd, List.flatten_cons,
      foreach_chain_append]
    by_cases hs : (foreach_chain func t.hash_buckets[i] u).1 = true
    · simp [hs]
    · simp only [hs, if_false, Bool.false_eq_true]
      exact ih (i + 1) _ (by omega)

theorem foreach_eq {K V D U : Type} (t : hash_table K V D)
    (hlen : t.hash_buckets.length = t.hash_buckets_len) (func : K → V → U → Int × U) (u : U) :
    hashtable_foreach t func u = some (foreach_chain func (live_entries t) u).2 := by
  unfold hashtable_foreach live_entries
  rw [foreach_buckets_eq t func _ 0 u (by omega)]
  simp

theorem foreach_chain_record {K V : Type} (l seen : List (hash_node K V)) :
    foreach_chain record_visit l seen = (false, seen ++ l) := by
  induction l generalizing seen with
  | nil => simp [foreach_chain]
  | cons a rest ih => simp [foreach_chain, record_visit, ih]

theorem foreach_record {K V D : Type} (t : hash_table K V D) (hr : Reachable t) :
    hashtable_foreach t record_visit [] = some (live_entries t) := by
  rw [foreach_eq t (reachable_inv t hr).1, foreach_chain_record]
  simp

/-! ## Example tables -/

theorem demo_reachable : Reachable demo_table :=
  Reachable.create (fun _ => []) demo_compare () false false 0 (some demo_hash) 32 demo_table rfl

theorem demo_reachable_1 : Reachable demo_table_1 :=
  Reachable.put demo_table 1 10 true ⟨demo_table_1, [], none⟩ demo_reachable rfl

theorem demo_reachable_2 : Reachable demo_table_2 :=
  Reachable.put demo_table_1 9 90 true ⟨demo_table_2, [], none⟩ demo_reachable_1 rfl

theorem demo_equivalence : compare_equivalence demo_table.map := by
  refine ⟨fun a => ?_, fun a b h => ?_, fun a b c h1 h2 => ?_⟩
  · simp [keys_equal, demo_table, demo_compare]
  · simp only [keys_equal, demo_table, demo_compare] at h ⊢; omega
  · simp only [keys_equal, demo_table, demo_compare] at h1 h2 ⊢; omega

theorem demo_in_range : hash_in_range demo_table := fun key =>
  Nat.mod_lt key (by decide)

theorem demo_respects : hash_respects_compare demo_table := by
  intro a b h
  simp only [keys_equal, demo_table, demo_compare] at h
  have : a = b := by omega
  rw [this]

/-! ## Properties of the map contract -/

theorem live_entry_bucket {K V D : Type} (t : hash_table K V D) (hp : chains_placed t)
    (n : hash_node K V) (hn : n ∈ live_entries t) :
    ∃ chain, t.hash_buckets[t.hash_fn n.key t.order]? = some chain ∧ n ∈ chain := by
  obtain ⟨chain, hc, hnc⟩ := List.mem_flatten.mp hn
  obtain ⟨i, hi⟩ := List.mem_iff_getElem?.mp hc
  rw [hp i chain hi n hnc]
  exact ⟨chain, hi, hnc⟩

theorem chain_length_le_count {K V D : Type} (t : hash_table K V D) (hinv : table_inv t)
    (i : Nat) (chain : List (hash_node K V)) (hb : t.hash_buckets[i]? = some chain) :
    chain.length ≤ t.count := by
  have hle := flatten_length_set _ _ _ [] hb
  have h2 : t.count = t.hash_buckets.flatten.length := hinv.2
  simp only [List.length_nil] at hle
  omega

/-- C1: on a reachable table whose comparison callback is an equivalence
relation and whose hash function stays below the bucket count, `put(k, v)`
followed by any finite sequence of `put` and `remove` calls on keys that compare
unequal to `k` is defined throughout, and `get(k)` then returns `v`. -/
theorem put_get_survives_other_calls {K V D : Type} (t : hash_table K V D)
    (hr : Reachable t) (he : compare_equivalence t.map) (hrange : hash_in_range t)
    (k : K) (v : V) (ops : List (map_op K V))
    (hops : ∀ op ∈ ops, ¬ keys_equal t.map op.key k) :
    ∃ r t2, hashtable_put t k v true = some r ∧ apply_ops r.ht ops = some t2
      ∧ hashtable_get t2 k = some (some v) := by
  have hinv := reachable_inv t hr
  obtain ⟨r, h⟩ := put_defined t k v true (hinv.1 ▸ hrange k)
  have hc : same_config t r.ht := (put_spec _ _ _ _ _ h).choose_spec.2.1
  have hrange1 : hash_in_range r.ht := by
    intro key
    rw [hc.2.2.1, hc.2.1, hc.2.2.2]
    exact hrange key
  obtain ⟨t2, h1, h2⟩ := get_stable ops r.ht (Reachable.put t k v true r hr h) (hc.1 ▸ he)
    hrange1 k (fun o ho => hc.1 ▸ hops o ho)
  exact ⟨r, t2, h, h1, h2.trans (get_after_put_same t k v r he (reachable_unique t hr he) h)⟩

theorem put_get_survives_other_calls_witness :
    ∃ r t2, hashtable_put demo_table_1 1 11 true = some r
      ∧ apply_ops r.ht [map_op.put 9 90 true, map_op.rm 2, map_op.put 3 30 false] = some t2
      ∧ hashtable_get t2 1 = some (some 11) :=
  put_get_survives_other_calls demo_table_1 demo_reachable_1 demo_equivalence demo_in_range
    1 11 [map_op.put 9 90 true, map_op.rm 2, map_op.put 3 30 false] (by decide)

/-- C2: on a reachable table whose comparison callback is an equivalence
relation and whose hash function gives equal keys the same index below the
bucket count, `remove(k)` of a key that has a live entry returns `QB_TRUE`,
leaves `count` exactly one less than before, and a following `get(k)` returns
`NULL`. -/
theorem rm_present_key {K V D : Type} (t : hash_table K V D)
    (hr : Reachable t) (he : compare_equivalence t.map) (hh : hash_respects_compare t)
    (hrange : hash_in_range t) (k : K)
    (hlive : ∃ n ∈ live_entries t, keys_equal t.map n.key k) :
    ∃ r, hashtable_rm t k = some r ∧ r.ret = QB_TRUE
      ∧ hashtable_count_get r.ht + 1 = hashtable_count_get t
      ∧ hashtable_get r.ht k = some none := by
  have hinv := reachable_inv t hr
  obtain ⟨r, h⟩ := rm_with_hash_defined t k (t.hash_fn k t.order) (hinv.1 ▸ hrange k)
  refine ⟨r, h, ?_, ?_, get_after_rm_same t k r he (reachable_unique t hr he) h⟩
  all_goals
    obtain ⟨n, hn, hk⟩ := hlive
    obtain ⟨chain, hb, hcount⟩ := live_entry_bucket t (reachable_placed t hr) n hn
    rw [hh _ _ hk] at hb
    obtain ⟨chain1, hb1, -, -, hcase⟩ := rm_with_hash_spec _ _ _ _ h
    rw [hb] at hb1
    simp only [Option.some.injEq] at hb1
    subst hb1
    rcases hcase with ⟨-, h2, h3⟩ | ⟨h1, -, -⟩
    rotate_left
    · exact absurd hk (h1 n hcount)
  · exact h2
  · have hle := chain_length_le_count t hinv _ chain hb
    have hpos : 0 < chain.length := List.length_pos_of_mem hcount
    simp only [hashtable_count_get, h3]
    omega

theorem rm_present_key_witness :
    ∃ r, hashtable_rm demo_table_2 9 = some r ∧ r.ret = QB_TRUE
      ∧ hashtable_count_get r.ht + 1 = hashtable_count_get demo_table_2
      ∧ hashtable_get r.ht 9 = some none :=
  rm_present_key demo_table_2 demo_reachable_2 demo_equivalence demo_respects demo_in_range 9
    ⟨⟨90, 9⟩, by simp [live_entries, demo_table_2], by decide⟩

/-- C3: on a reachable table whose comparison callback is an equivalence
relation and whose hash function stays below the bucket count, `put(k, v2)`
right after `put(k, v1)` (both allocations succeeding) leaves `count` at its
value after the first `put`, and `get(k)` then returns `v2`. -/
theorem put_twice_replaces {K V D : Type} (t : hash_table K V D)
    (hr : Reachable t) (he : compare_equivalence t.map) (hrange : hash_in_range t)
    (k : K) (v1 v2 : V) :
    ∃ r1 r2, hashtable_put t k v1 true = some r1 ∧ hashtable_put r1.ht k v2 true = some r2
      ∧ hashtable_count_get r2.ht = hashtable_count_get r1.ht
      ∧ hashtable_get r2.ht k = some (some v2) := by
  have hinv := reachable_inv t hr
  obtain ⟨r1, h1⟩ := put_defined t k v1 true (hinv.1 ▸ hrange k)
  obtain ⟨chain, hb, hc, hbs, -⟩ := put_spec _ _ _ _ _ h1
  have hr1 : Reachable r1.ht := Reachable.put t k v1 true r1 hr h1
  have hinv1 := reachable_inv _ hr1
  have hlen : t.hash_fn k t.order < t.hash_buckets.length := hinv.1 ▸ hrange k
  have hlen1 : r1.ht.hash_fn k r1.ht.order < r1.ht.hash_buckets.length := by
    rw [hc.2.2.1, hc.2.1, hbs, List.length_set]
    exact hlen
  obtain ⟨r2, h2⟩ := put_defined r1.ht k v2 true hlen1
  have he1 : compare_equivalence r1.ht.map := hc.1 ▸ he
  refine ⟨r1, r2, h1, h2, ?_,
    get_after_put_same r1.ht k v2 r2 he1 (reachable_unique _ hr1 he1) h2⟩
  obtain ⟨chain1, hb1, -, -, hcase⟩ := put_spec _ _ _ _ _ h2
  have hpos : 0 < chain1.length ∧ (⟨v1, k⟩ : hash_node K V) ∈ chain1 := by
    rw [hc.2.2.1, hc.2.1, hbs, List.getElem?_set_self hlen] at hb1
    simp only [if_true, qb_list_add_tail, Option.some.injEq] at hb1
    subst hb1
    simp
  have hle := chain_length_le_count r1.ht hinv1 _ chain1 hb1
  rcases hcase with ⟨-, h3⟩ | ⟨h3, -⟩
  · simp only [hashtable_count_get, h3, if_true]
    omega
  · exact absurd (he1.refl k) (h3 _ hpos.2)

theorem put_twice_replaces_witness :
    ∃ r1 r2, hashtable_put demo_table_2 3 30 true = some r1
      ∧ hashtable_put r1.ht 3 31 true = some r2
      ∧ hashtable_count_get r2.ht = hashtable_count_get r1.ht
      ∧ hashtable_get r2.ht 3 = some (some 31) :=
  put_twice_replaces demo_table_2 demo_reachable_2 demo_equivalence demo_in_range 3 30 31

/-- C4: on a reachable table, `put(k, v)` with a successful allocation, for a
key `k` that no live entry's key compares equal to, makes `count` exactly one
greater than before.  The call is defined exactly when the hash of `k` is an
index of the bucket array. -/
theorem put_fresh_key_count {K V D : Type} (t : hash_table K V D) (hr : Reachable t)
    (k : K) (v : V) (hfresh : ∀ n ∈ live_entries t, ¬ keys_equal t.map n.key k) :
    ((hashtable_put t k v true).isSome = true ↔ t.hash_fn k t.order < t.hash_buckets_len)
      ∧ ∀ r, hashtable_put t k v true = some r →
          hashtable_count_get r.ht = hashtable_count_get t + 1 := by
  have hinv := reachable_inv t hr
  refine ⟨⟨fun h => ?_, fun h => ?_⟩, fun r h => ?_⟩
  · obtain ⟨r, h1⟩ := Option.isSome_iff_exists.mp h
    obtain ⟨chain, hb, -⟩ := put_spec _ _ _ _ _ h1
    exact hinv.1 ▸ (List.getElem?_eq_some.mp hb).1
  · obtain ⟨r, h1⟩ := put_defined t k v true (hinv.1 ▸ h)
    rw [h1]; rfl
  · obtain ⟨chain, hb, -, -, hcase⟩ := put_spec _ _ _ _ _ h
    rcases hcase with ⟨⟨n, hn, hk⟩, -⟩ | ⟨-, h3⟩
    · exact absurd hk (hfresh n (List.mem_flatten.mpr ⟨chain, bucket_mem hb, hn⟩))
    · simpa [hashtable_count_get] using h3

theorem put_fresh_key_count_witness :
    ((hashtable_put demo_table_2 17 170 true).isSome = true
        ↔ demo_table_2.hash_fn 17 demo_table_2.order < demo_table_2.hash_buckets_len)
      ∧ ∀ r, hashtable_put demo_table_2 17 170 true = some r →
          hashtable_count_get r.ht = hashtable_count_get demo_table_2 + 1 :=
  put_fresh_key_count demo_table_2 demo_reachable_2 17 170 (by decide)

/-- C5: on a reachable table, `remove(k)` of a key `k` that no live entry's key
compares equal to returns `QB_FALSE` and leaves `count` (indeed the whole
table) unchanged.  The call is defined exactly when the hash of `k` is an index
of the bucket array. -/
theorem rm_absent_key {K V D : Type} (t : hash_table K V D) (hr : Reachable t)
    (k : K) (hfresh : ∀ n ∈ live_entries t, ¬ keys_equal t.map n.key k) :
    ((hashtable_rm t k).isSome = true ↔ t.hash_fn k t.order < t.hash_buckets_len)
      ∧ ∀ r, hashtable_rm t k = some r →
          r.ret = QB_FALSE ∧ hashtable_count_get r.ht = hashtable_count_get t ∧ r.ht = t := by
  have hinv := reachable_inv t hr
  refine ⟨⟨fun h => ?_, fun h => ?_⟩, fun r h => ?_⟩
  · obtain ⟨r, h1⟩ := Option.isSome_iff_exists.mp h
    obtain ⟨chain, hb, -⟩ := rm_with_hash_spec _ _ _ _ h1
    exact hinv.1 ▸ (List.getElem?_eq_some.mp hb).1
  · obtain ⟨r, h1⟩ := rm_with_hash_defined t k (t.hash_fn k t.order) (hinv.1 ▸ h)
    show (hashtable_rm_with_hash t k (t.hash_fn k t.order)).isSome = true
    rw [h1]; rfl
  · obtain ⟨chain, hb, -, -, hcase⟩ := rm_with_hash_spec _ _ _ _ h
    rcases hcase with ⟨⟨n, hn, hk⟩, -⟩ | ⟨-, h2, h3⟩
    · exact absurd hk (hfresh n (List.mem_flatten.mpr ⟨chain, bucket_mem hb, hn⟩))
    · exact ⟨h2, by rw [h3], h3⟩

theorem rm_absent_key_witness :
    ((hashtable_rm demo_table_2 17).isSome = true
        ↔ demo_table_2.hash_fn 17 demo_table_2.order < demo_table_2.hash_buckets_len)
      ∧ ∀ r, hashtable_rm demo_table_2 17 = some r →
          r.ret = QB_FALSE ∧ hashtable_count_get r.ht = hashtable_count_get demo_table_2
            ∧ r.ht = demo_table_2 :=
  rm_absent_key demo_table_2 demo_reachable_2 17 (by decide)

/-- C6: in every table reachable from `qb_hashtable_create` by `put` (whether
or not its allocation succeeds) and `remove`, the value returned by
`hashtable_count_get` is the total number of nodes in the bucket chains, and a
full iteration (visitor never signalling stop) visits exactly that many
entries. -/
theorem count_is_number_of_entries {K V D : Type} (t : hash_table K V D) (hr : Reachable t) :
    hashtable_count_get t = (t.hash_buckets.map List.length).sum
      ∧ ∃ seen, hashtable_foreach t record_visit [] = some seen
          ∧ seen.length = hashtable_count_get t := by
  have hinv := reachable_inv t hr
  have h2 : t.count = t.hash_buckets.flatten.length := hinv.2
  refine ⟨by rw [hashtable_count_get, h2, List.length_flatten], live_entries t,
    foreach_record t hr, ?_⟩
  rw [hashtable_count_get, h2]
  rfl

theorem count_is_number_of_entries_witness :
    hashtable_count_get demo_table_2 = (demo_table_2.hash_buckets.map List.length).sum
      ∧ ∃ seen, hashtable_foreach demo_table_2 record_visit [] = some seen
          ∧ seen.length = hashtable_count_get demo_table_2 :=
  count_is_number_of_entries demo_table_2 demo_reachable_2

/-! ## Early termination of an iteration -/

theorem foreach_chain_logged {K V U : Type} (func : K → V → U → Int × U)
    (l seen : List (hash_node K V)) (u : U) :
    ((foreach_chain (logged_visit func) l (seen, u)).2).1
      = seen ++ visited_until_stop func l u := by
  induction l generalizing seen u with
  | nil => simp [foreach_chain, visited_until_stop]
  | cons a rest ih =>
    by_cases h : (func a.key a.value u).1 = 0
    · simp [foreach_chain, visited_until_stop, logged_visit, h, ih]
    · simp [foreach_chain, visited_until_stop, logged_visit, h]

theorem visited_until_stop_facts {K V U : Type} (func : K → V → U → Int × U)
    (l : List (hash_node K V)) (u : U) :
    visited_until_stop func l u <+: l
      ∧ (∀ j, j + 1 < (visited_until_stop func l u).length →
          (visit_signals func (visited_until_stop func l u) u)[j]? = some 0)
      ∧ ((visited_until_stop func l u).length < l.length →
          ∃ s, s ≠ 0 ∧ (visit_signals func (visited_until_stop func l u) u).getLast? = some s)
      := by
  induction l generalizing u with
  | nil => simp [visited_until_stop]
  | cons a rest ih =>
    by_cases h : (func a.key a.value u).1 = 0
    · obtain ⟨h1, h2, h3⟩ := ih (func a.key a.value u).2
      simp only [visited_until_stop, h, ne_eq, not_true_eq_false, if_false]
      refine ⟨?_, ?_, ?_⟩
      · exact (List.prefix_cons_inj a).mpr h1
      · intro j hj
        cases j with
        | zero => simp [visit_signals, h]
        | succ i =>
          simp only [List.length_cons] at hj
          simpa [visit_signals] using h2 i (by omega)
      · intro hlt
        simp only [List.length_cons, Nat.add_lt_add_iff_right] at hlt
        obtain ⟨s, hs, hl⟩ := h3 hlt
        refine ⟨s, hs, ?_⟩
        simp only [visit_signals]
        rw [List.getLast?_cons, hl]
        rfl
    · simp only [visited_until_stop, h, ne_eq, not_false_eq_true, if_true]
      refine ⟨by simp, ?_, ?_⟩
      · intro j hj
        simp at hj
      · intro _
        exact ⟨_, h, by simp [visit_signals]⟩

/-- C8: on a reachable table and for every visitor that does not touch the
table, the entries `hashtable_foreach` hands to the visitor are the shortest
leading part of the full iteration order ending with the first entry on which
the visitor returns nonzero (the whole order if it never does): every visit but
the last returned zero, and if anything of the order is left unvisited the last
visit returned nonzero. -/
theorem foreach_stops_at_first_signal {K V D U : Type} (t : hash_table K V D)
    (hr : Reachable t) (func : K → V → U → Int × U) (u : U) :
    ∃ seen u1, hashtable_foreach t (logged_visit func) ([], u) = some (seen, u1)
      ∧ seen = visited_until_stop func (live_entries t) u
      ∧ seen <+: live_entries t
      ∧ (∀ j, j + 1 < seen.length → (visit_signals func seen u)[j]? = some 0)
      ∧ (seen.length < (live_entries t).length →
          ∃ s, s ≠ 0 ∧ (visit_signals func seen u).getLast? = some s) := by
  have hf := foreach_eq t (reachable_inv t hr).1 (logged_visit func) ([], u)
  have hl := foreach_chain_logged func (live_entries t) [] u
  obtain ⟨h1, h2, h3⟩ := visited_until_stop_facts func (live_entries t) u
  refine ⟨_, _, hf, ?_, ?_, ?_, ?_⟩
  · rw [hl]; rfl
  · rw [hl]; exact h1
  · rw [hl]; exact h2
  · rw [hl]; exact h3

theorem foreach_stops_at_first_signal_witness :
    ∃ seen u1, hashtable_foreach demo_table_2
        (logged_visit (fun key _ (n : Nat) => (if key = 1 then (1 : Int) else 0, n + 1)))
        ([], 0) = some (seen, u1)
      ∧ seen = visited_until_stop (fun key _ (n : Nat) => (if key = 1 then (1 : Int) else 0, n + 1))
          (live_entries demo_table_2) 0
      ∧ seen <+: live_entries demo_table_2
      ∧ (∀ j, j + 1 < seen.length →
          (visit_signals (fun key _ (n : Nat) => (if key = 1 then (1 : Int) else 0, n + 1))
            seen 0)[j]? = some 0)
      ∧ (seen.length < (live_entries demo_table_2).length →
          ∃ s, s ≠ 0 ∧ (visit_signals
            (fun key _ (n : Nat) => (if key = 1 then (1 : Int) else 0, n + 1)) seen 0).getLast?
              = some s) :=
  foreach_stops_at_first_signal demo_table_2 demo_reachable_2 _ 0

/-- C9: in a reachable table whose comparison callback is an equivalence
relation and whose hash function gives equal keys the same index, no two
distinct live entries have keys that the callback reports equal, in either
argument order. -/
theorem one_entry_per_key {K V D : Type} (t : hash_table K V D) (hr : Reachable t)
    (he : compare_equivalence t.map) (hh : hash_respects_compare t) :
    (live_entries t).Pairwise
      (fun a b => ¬ keys_equal t.map a.key b.key ∧ ¬ keys_equal t.map b.key a.key) := by
  have hu := reachable_unique t hr he
  have hp := reachable_placed t hr
  unfold live_entries
  rw [List.pairwise_flatten]
  refine ⟨fun c hc => ?_, ?_⟩
  · exact (hu c hc).imp (fun h => ⟨h, fun h1 => h (he.symm _ _ h1)⟩)
  · rw [List.pairwise_iff_getElem]
    intro i j hi hj hij x hx y hy
    have h1 := hp i _ (List.getElem?_eq_getElem hi) x hx
    have h2 := hp j _ (List.getElem?_eq_getElem hj) y hy
    refine ⟨fun h => ?_, fun h => ?_⟩
    · have := hh _ _ h; omega
    · have := hh _ _ h; omega

theorem one_entry_per_key_witness :
    (live_entries demo_table_2).Pairwise
      (fun a b => ¬ keys_equal demo_table_2.map a.key b.key
        ∧ ¬ keys_equal demo_table_2.map b.key a.key) :=
  one_entry_per_key demo_table_2 demo_reachable_2 demo_equivalence demo_respects

/-! ## Bucket count chosen at creation -/

theorem next_power_of_two_from_spec (n fuel j : Nat) (hfuel : n ≤ 2 ^ (j + fuel))
    (hmin : ∀ e, n ≤ 2 ^ e → j ≤ e) :
    ∃ e, next_power_of_two_from n fuel (2 ^ j) = 2 ^ e ∧ n ≤ 2 ^ e
      ∧ ∀ e1, n ≤ 2 ^ e1 → e ≤ e1 := by
  induction fuel generalizing j with
  | zero => exact ⟨j, rfl, by simpa using hfuel, hmin⟩
  | succ f ih =>
    by_cases h : n ≤ 2 ^ j
    · exact ⟨j, by simp [next_power_of_two_from, h], h, hmin⟩
    · have hstep : ∀ e, n ≤ 2 ^ e → j + 1 ≤ e := by
        intro e he
        by_contra hlt
        have : 2 ^ e ≤ 2 ^ j := Nat.pow_le_pow_right (by decide) (by omega)
        omega
      obtain ⟨e, h1, h2, h3⟩ := ih (j + 1) (by rw [Nat.add_assoc, Nat.add_comm 1 f]; exact hfuel)
        hstep
      refine ⟨e, ?_, h2, h3⟩
      simp only [next_power_of_two_from, h, if_false]
      rw [← h1, Nat.pow_succ, Nat.mul_comm]

/-- The function `next_power_of_two` returns the least power of two that is not
below its argument. -/
theorem next_power_of_two_spec (n : Nat) :
    ∃ e, next_power_of_two n = 2 ^ e ∧ n ≤ 2 ^ e ∧ ∀ e1, n ≤ 2 ^ e1 → e ≤ e1 := by
  have h := next_power_of_two_from_spec n n 0
    (by rw [Nat.zero_add]; exact (Nat.lt_two_pow n).le) (fun e _ => Nat.zero_le e)
  simpa [next_power_of_two] using h

theorem size_half (m : Nat) (hm : m ≠ 0) : (m / 2).size + 1 = m.size := by
  have hpos : 0 < m.size := Nat.size_pos.mpr (Nat.pos_of_ne_zero hm)
  apply le_antisymm
  · have h1 : (m / 2).size ≤ m.size - 1 := by
      rw [Nat.size_le]
      have h2 := Nat.lt_size_self m
      have h3 : 2 ^ m.size = 2 * 2 ^ (m.size - 1) := by
        rw [← Nat.pow_succ']
        congr 1
        omega
      omega
    omega
  · rw [Nat.size_le, Nat.pow_succ]
    have h2 := Nat.lt_size_self (m / 2)
    omega

/-- The order loop on a non-negative `n` stops after as many iterations as `n`
has binary digits. -/
theorem order_loop_nonneg (fuel i m : Nat) (hfuel : m.size ≤ fuel) :
    order_loop fuel i (m : Int) = some (i + m.size) := by
  induction fuel generalizing i m with
  | zero =>
    have hm : m = 0 := Nat.size_eq_zero.mp (by omega)
    subst hm
    simp [order_loop]
  | succ f ih =>
    by_cases hm : m = 0
    · subst hm
      unfold order_loop
      simp
    · have hs := size_half m hm
      have hshift : (m : Int) >>> 1 = ((m / 2 : Nat) : Int) := by
        have h0 : (m : Int) >>> 1 = ((m >>> 1 : Nat) : Int) := rfl
        rw [h0, Nat.shiftRight_eq_div_pow, Nat.pow_one]
      unfold order_loop
      have hne : (m : Int) ≠ 0 := by exact_mod_cast hm
      simp only [hne, if_false, hshift]
      rw [ih (i + 1) (m / 2) (by omega)]
      simp only [Option.some.injEq]
      omega

/-- The order loop on a negative `n` never stops: the arithmetic shift keeps
`n` negative. -/
theorem order_loop_negative (fuel i : Nat) (n : Int) (hn : n < 0) :
    order_loop fuel i n = none := by
  induction fuel generalizing i n with
  | zero =>
    unfold order_loop
    simp [Int.ne_of_lt hn]
  | succ f ih =>
    have hshift : n >>> 1 < 0 := by
      cases n with
      | ofNat k => exact absurd hn (by simp)
      | negSucc k => exact Int.negSucc_lt_zero _
    unfold order_loop
    simp only [Int.ne_of_lt hn, if_false]
    exact ih (i + 1) _ hshift

/-- C10 (as the code has it): for every size hint below `2 ^ 31`, with `calloc`
succeeding, `qb_hashtable_create` returns a table whose order is
`max(3, e)` and whose bucket count is `max(8, 2 ^ e)`, where `2 ^ e` is the
least power of two strictly greater than the size hint (`e` is the number of
binary digits of the hint). -/
theorem create_bucket_count {K V D : Type} (deref : K → List Nat)
    (key_compare_func : K → K → D → Int) (key_compare_data : D)
    (key_destroy_func value_destroy_func : Bool) (max_size : Nat)
    (hash_fn : Option (K → Nat → Nat)) (fuel : Nat)
    (hsize : max_size < 2 ^ 31) (hfuel : 32 ≤ fuel) :
    ∃ (t : hash_table K V D) (e : Nat),
      qb_hashtable_create deref key_compare_func key_compare_data key_destroy_func
        value_destroy_func max_size hash_fn true fuel = create_result.returned t
      ∧ max_size < 2 ^ e ∧ (∀ e1, max_size < 2 ^ e1 → e ≤ e1)
      ∧ t.order = max 3 e ∧ t.hash_buckets_len = max 8 (2 ^ e)
      ∧ t.hash_buckets.length = t.hash_buckets_len ∧ hashtable_count_get t = 0 := by
  have hconv : to_int32 max_size = (max_size : Int) := by
    have h1 : max_size % 2 ^ 32 = max_size := Nat.mod_eq_of_lt (by omega)
    simp only [to_int32, h1, hsize, if_true]
  have hs31 : max_size.size ≤ 31 := Nat.size_le.mpr hsize
  have hloop := order_loop_nonneg fuel 0 max_size (by omega)
  rw [Nat.zero_add] at hloop
  have hmax : QB_MAX max_size.size 3 = max 3 max_size.size := by
    unfold QB_MAX
    split <;> omega
  have hpow : (1 <<< max 3 max_size.size) % 2 ^ 32 = max 8 (2 ^ max_size.size) := by
    rw [Nat.one_shiftLeft]
    have hlt : 2 ^ max 3 max_size.size < 2 ^ 32 :=
      Nat.pow_lt_pow_right (by decide) (by omega)
    rw [Nat.mod_eq_of_lt hlt]
    rcases Nat.le_total 3 max_size.size with h | h
    · have h8 : 2 ^ 3 ≤ 2 ^ max_size.size := Nat.pow_le_pow_right (by decide) h
      rw [max_eq_right h, max_eq_right (by simpa using h8)]
    · have h8 : 2 ^ max_size.size ≤ 2 ^ 3 := Nat.pow_le_pow_right (by decide) h
      rw [max_eq_left h, max_eq_left (by simpa using h8)]
      rfl
  have hcreate : ∃ t : hash_table K V D,
      qb_hashtable_create deref key_compare_func key_compare_data key_destroy_func
        value_destroy_func max_size hash_fn true fuel = create_result.returned t
      ∧ t.order = QB_MAX max_size.size 3
      ∧ t.hash_buckets_len = (1 <<< QB_MAX max_size.size 3) % 2 ^ 32
      ∧ t.hash_buckets = List.replicate ((1 <<< QB_MAX max_size.size 3) % 2 ^ 32) []
      ∧ t.count = 0 := by
    simp only [qb_hashtable_create, hconv, hloop, Bool.true_eq_false, if_false]
    exact ⟨_, rfl, rfl, rfl, rfl, rfl⟩
  obtain ⟨t, h1, h2, h3, h4, h5⟩ := hcreate
  refine ⟨t, max_size.size, h1, Nat.lt_size_self max_size, fun e1 h => Nat.size_le.mpr h,
    ?_, ?_, ?_, h5⟩
  · rw [h2, hmax]
  · rw [h3, hmax, hpow]
  · rw [h4, h3, List.length_replicate]

theorem create_bucket_count_witness :
    ∃ (t : hash_table Nat Nat Unit) (e : Nat),
      qb_hashtable_create (fun _ => []) demo_compare () false false 100 (some demo_hash) true 32
        = create_result.returned t
      ∧ 100 < 2 ^ e ∧ (∀ e1, 100 < 2 ^ e1 → e ≤ e1)
      ∧ t.order = max 3 e ∧ t.hash_buckets_len = max 8 (2 ^ e)
      ∧ t.hash_buckets.length = t.hash_buckets_len ∧ hashtable_count_get t = 0 :=
  create_bucket_count (fun _ => []) demo_compare () false false 100 (some demo_hash) 32
    (by decide) (by decide)

/-- The bucket counts for the size hints 0, 100 and 8, with enough fuel for the
order loop. -/
theorem bucket_count_examples :
    (∃ t : hash_table Nat Nat Unit,
        qb_hashtable_create (fun _ => []) demo_compare () false false 0 (some demo_hash) true 32
          = create_result.returned t ∧ t.hash_buckets_len = 8)
      ∧ (∃ t : hash_table Nat Nat Unit,
        qb_hashtable_create (fun _ => []) demo_compare () false false 100 (some demo_hash) true 32
          = create_result.returned t ∧ t.hash_buckets_len = 128) :=
  ⟨⟨_, rfl, rfl⟩, ⟨_, rfl, rfl⟩⟩

/-- C10 (as stated) fails: for the size hint 8 the spec's
`max(8, next_power_of_two(8))` is 8, but the table has 16 buckets; and for the
size hint `2 ^ 32`, whose low 32 bits are zero, the table has 8 buckets, below
the hint. -/
theorem bucket_count_not_rounded_up :
    (∃ t : hash_table Nat Nat Unit,
        qb_hashtable_create (fun _ => []) demo_compare () false false 8 (some demo_hash) true 32
          = create_result.returned t
        ∧ t.hash_buckets_len = 16 ∧ spec_bucket_count 8 = 8
        ∧ t.hash_buckets_len ≠ spec_bucket_count 8)
      ∧ (∃ t : hash_table Nat Nat Unit,
        qb_hashtable_create (fun _ => []) demo_compare () false false (2 ^ 32) (some demo_hash)
          true 32 = create_result.returned t
        ∧ t.hash_buckets_len = 8 ∧ 2 ^ 32 ≤ spec_bucket_count (2 ^ 32)
        ∧ t.hash_buckets_len ≠ spec_bucket_count (2 ^ 32)) := by
  refine ⟨⟨_, rfl, rfl, by decide, by decide⟩, ⟨_, rfl, rfl, ?_, ?_⟩⟩
  · obtain ⟨e, h1, h2, -⟩ := next_power_of_two_spec (2 ^ 32)
    exact le_trans h2 (h1 ▸ le_max_right 8 (next_power_of_two (2 ^ 32)))
  · obtain ⟨e, h1, h2, -⟩ := next_power_of_two_spec (2 ^ 32)
    have : 2 ^ 32 ≤ spec_bucket_count (2 ^ 32) :=
      le_trans h2 (h1 ▸ le_max_right 8 (next_power_of_two (2 ^ 32)))
    show 8 ≠ spec_bucket_count (2 ^ 32)
    omega

/-! ## Iteration order and the order of the `put` calls -/

theorem table_ext {K V D : Type} (t1 t2 : hash_table K V D) (h1 : t1.map = t2.map)
    (h2 : t1.count = t2.count) (h3 : t1.order = t2.order) (h4 : t1.hash_fn = t2.hash_fn)
    (h5 : t1.hash_buckets_len = t2.hash_buckets_len)
    (h6 : t1.hash_buckets = t2.hash_buckets) : t1 = t2 := by
  cases t1; cases t2; simp_all

theorem chain_value_isSome_iff {K V D : Type} (m : qb_map K V D) (key : K)
    (chain : List (hash_node K V)) :
    (chain_value m key chain).isSome = true ↔ ∃ n ∈ chain, keys_equal m n.key key := by
  rw [← Option.ne_none_iff_isSome, ne_eq, chain_value_none_iff]
  push_neg
  rfl

theorem apply_op_eq {K V D : Type} (t : hash_table K V D) (op : map_op K V) :
    apply_op t op = (t.hash_buckets[t.hash_fn op.key t.order]?).map (fun chain =>
      { t with
        count := op_count t.map op chain t.count
        hash_buckets := t.hash_buckets.set (t.hash_fn op.key t.order) (op_chain t.map op chain) })
    := by
  cases hb : t.hash_buckets[t.hash_fn op.key t.order]? with
  | none =>
    cases hop : apply_op t op with
    | none => rfl
    | some t1 =>
      exfalso
      cases op with
      | put key value malloc_ok =>
        simp only [apply_op, Option.map_eq_some'] at hop
        obtain ⟨r, h1, -⟩ := hop
        obtain ⟨chain, hb1, -⟩ := put_spec _ _ _ _ _ h1
        simp only [map_op.key] at hb
        rw [hb] at hb1
        cases hb1
      | rm key =>
        simp only [apply_op, Option.map_eq_some'] at hop
        obtain ⟨r, h1, -⟩ := hop
        obtain ⟨chain, hb1, -⟩ := rm_with_hash_spec _ _ _ _ h1
        simp only [map_op.key] at hb
        rw [hb] at hb1
        cases hb1
  | some chain =>
    have hlen : t.hash_fn op.key t.order < t.hash_buckets.length :=
      (List.getElem?_eq_some.mp hb).1
    cases op with
    | put key value malloc_ok =>
      simp only [map_op.key] at hb hlen ⊢
      obtain ⟨r, h1⟩ := put_defined t key value malloc_ok hlen
      obtain ⟨chain1, hb1, hc, hbs, hcount⟩ := put_spec _ _ _ _ _ h1
      rw [hb] at hb1
      simp only [Option.some.injEq] at hb1
      subst hb1
      simp only [apply_op, h1, Option.map_some', Option.some.injEq]
      refine table_ext _ _ hc.1 ?_ hc.2.1 hc.2.2.1 hc.2.2.2 hbs
      rcases hcount with ⟨hx, h3⟩ | ⟨hx, h3⟩
      · simp only [op_count, (chain_value_isSome_iff _ _ _).mpr hx, if_true, h3]
      · have hnone : chain_value t.map key chain = none := (chain_value_none_iff _ _ _).mpr hx
        simp [op_count, hnone, h3]
    | rm key =>
      simp only [map_op.key] at hb hlen ⊢
      obtain ⟨r, h1⟩ := rm_with_hash_defined t key _ hlen
      obtain ⟨chain1, hb1, hc, hbs, hcount⟩ := rm_with_hash_spec _ _ _ _ h1
      rw [hb] at hb1
      simp only [Option.some.injEq] at hb1
      subst hb1
      simp only [apply_op, hashtable_rm, h1, Option.map_some', Option.some.injEq]
      refine table_ext _ _ hc.1 ?_ hc.2.1 hc.2.2.1 hc.2.2.2 hbs
      rcases hcount with ⟨hx, -, h3⟩ | ⟨hx, -, h3⟩
      · simp only [op_count, (chain_value_isSome_iff _ _ _).mpr hx, if_true, h3]
      · have hnone : chain_value t.map key chain = none := (chain_value_none_iff _ _ _).mpr hx
        simp [op_count, hnone, h3]

theorem chain_without_map {K V W D : Type} (f : V → W) (m : qb_map K V D) (key : K)
    (chain : List (hash_node K V)) :
    chain_without (m.retype W) key (chain.map (hash_node.map_value f))
      = (chain_without m key chain).map (hash_node.map_value f) := by
  induction chain with
  | nil => rfl
  | cons a rest ih =>
    by_cases hc : m.key_compare_func a.key key m.key_compare_data = 0
    · simp [chain_without, qb_map.retype, hash_node.map_value, hc]
    · simp only [List.map_cons, chain_without, qb_map.retype, hash_node.map_value, hc, if_false]
      rw [← ih]
      rfl

theorem chain_value_map {K V W D : Type} (f : V → W) (m : qb_map K V D) (key : K)
    (chain : List (hash_node K V)) :
    chain_value (m.retype W) key (chain.map (hash_node.map_value f))
      = (chain_value m key chain).map f := by
  induction chain with
  | nil => rfl
  | cons a rest ih =>
    by_cases hc : m.key_compare_func a.key key m.key_compare_data = 0
    · simp [chain_value, qb_map.retype, hash_node.map_value, hc]
    · simp only [List.map_cons, chain_value, qb_map.retype, hash_node.map_value, hc, if_false]
      rw [← ih]
      rfl

/-- The operations do not look at the values: replacing the values before a
call or after it gives the same table. -/
theorem apply_op_map_values {K V W D : Type} (f : V → W) (t : hash_table K V D)
    (op : map_op K V) :
    apply_op (map_values f t) (op.map_value f) = (apply_op t op).map (map_values f) := by
  rw [apply_op_eq, apply_op_eq]
  have hkey : (op.map_value f).key = op.key := by cases op <;> rfl
  simp only [hkey, map_values, List.getElem?_map, Option.map_map]
  congr 1
  funext chain
  simp only [Function.comp]
  refine table_ext _ _ rfl ?_ rfl rfl rfl ?_
  · cases op with
    | put key value malloc_ok =>
      simp [op_count, map_op.map_value, chain_value_map, map_values]
    | rm key =>
      simp [op_count, map_op.map_value, chain_value_map, map_values]
  · show _ = List.map _ (List.set _ _ _)
    rw [List.map_set]
    cases op with
    | put key value malloc_ok =>
      cases malloc_ok <;>
        simp [op_chain, map_op.map_value, chain_without_map, qb_list_add_tail,
          hash_node.map_value]
    | rm key =>
      simp [op_chain, map_op.map_value, chain_without_map]

theorem stamp_ops_erase {K V D : Type} (ops : List (map_op K V)) (i : Nat)
    (s : hash_table K (V × Nat) D) :
    apply_ops (map_values Prod.fst s) ops
      = (apply_ops s (stamp_ops i ops)).map (map_values Prod.fst) := by
  induction ops generalizing i s with
  | nil => rfl
  | cons op rest ih =>
    have hop : (op.map_value (fun v => (v, i))).map_value Prod.fst = op := by
      cases op <;> rfl
    have h := apply_op_map_values Prod.fst s (op.map_value (fun v => (v, i)))
    rw [hop] at h
    simp only [apply_ops, stamp_ops, h]
    cases apply_op s (op.map_value (fun v => (v, i))) with
    | none => rfl
    | some s1 => exact ih (i + 1) s1

theorem stamped_step {K V D : Type} (s s1 : hash_table K (V × Nat) D) (op : map_op K V)
    (i : Nat) (h : apply_op s (op.map_value (fun v => (v, i))) = some s1)
    (hsorted : stamps_sorted s) (hbound : ∀ n ∈ live_entries s, n.value.2 < i) :
    stamps_sorted s1
      ∧ ∀ n ∈ live_entries s1,
          n ∈ live_entries s ∨ (n.value.2 = i ∧ op = map_op.put n.key n.value.1 true) := by
  rw [apply_op_eq] at h
  simp only [Option.map_eq_some'] at h
  obtain ⟨chain, hb, rfl⟩ := h
  have hcmem : chain ∈ s.hash_buckets := bucket_mem hb
  have hlive : ∀ n ∈ chain, n ∈ live_entries s := fun n hn =>
    List.mem_flatten.mpr ⟨chain, hcmem, hn⟩
  have hsub : List.Sublist (chain_without s.map (op.map_value (fun v => (v, i))).key chain)
      chain := chain_without_sublist _ _ _
  have hnew : (op_chain s.map (op.map_value (fun v => (v, i))) chain).Pairwise
        (fun a b => a.value.2 < b.value.2)
      ∧ ∀ n ∈ op_chain s.map (op.map_value (fun v => (v, i))) chain,
          n ∈ chain ∨ (n.value.2 = i ∧ op = map_op.put n.key n.value.1 true) := by
    cases op with
    | put key value malloc_ok =>
      simp only [map_op.map_value, map_op.key] at hsub
      cases malloc_ok with
      | false =>
        simp only [map_op.map_value, op_chain, Bool.false_eq_true, if_false]
        exact ⟨(hsorted chain hcmem).sublist hsub, fun n hn => Or.inl (hsub.subset hn)⟩
      | true =>
        simp only [map_op.map_value, op_chain, if_true, qb_list_add_tail]
        refine ⟨?_, fun n hn => ?_⟩
        · rw [List.pairwise_append]
          refine ⟨(hsorted chain hcmem).sublist hsub, List.pairwise_singleton _ _,
            fun a ha b hb1 => ?_⟩
          rw [List.mem_singleton] at hb1
          subst hb1
          exact hbound a (hlive a (hsub.subset ha))
        · rw [List.mem_append, List.mem_singleton] at hn
          rcases hn with h1 | h1
          · exact Or.inl (hsub.subset h1)
          · subst h1
            exact Or.inr ⟨rfl, rfl⟩
    | rm key =>
      simp only [map_op.map_value, map_op.key] at hsub
      simp only [map_op.map_value, op_chain]
      exact ⟨(hsorted chain hcmem).sublist hsub, fun n hn => Or.inl (hsub.subset hn)⟩
  refine ⟨fun c hc => ?_, fun n hn => ?_⟩
  · rcases List.mem_or_eq_of_mem_set hc with h1 | h1
    · exact hsorted c h1
    · rw [h1]; exact hnew.1
  · obtain ⟨c, hc, hnc⟩ := List.mem_flatten.mp hn
    rcases List.mem_or_eq_of_mem_set hc with h1 | h1
    · exact Or.inl (List.mem_flatten.mpr ⟨c, h1, hnc⟩)
    · rw [h1] at hnc
      rcases hnew.2 n hnc with h2 | h2
      · exact Or.inl (hlive n h2)
      · exact Or.inr h2

theorem stamped_step_distinct {K V D : Type} (s s1 : hash_table K (V × Nat) D)
    (op : map_op K V) (i : Nat) (h : apply_op s (op.map_value (fun v => (v, i))) = some s1)
    (hbound : ∀ n ∈ live_entries s, n.value.2 < i) (hd : stamps_distinct s) :
    stamps_distinct s1 := by
  rw [apply_op_eq] at h
  simp only [Option.map_eq_some'] at h
  obtain ⟨chain, hb, rfl⟩ := h
  obtain ⟨pre, post, e1, -, e3⟩ := bucket_split _ _ _ hb
  have hsub : List.Sublist (chain_without s.map (op.map_value (fun v => (v, i))).key chain)
      chain := chain_without_sublist _ _ _
  unfold stamps_distinct live_entries at hd ⊢
  unfold live_entries at hbound
  simp only [e3]
  rw [e1] at hd hbound
  simp only [List.flatten_append, List.flatten_cons] at hd hbound ⊢
  have hrest : List.Sublist
      (pre.flatten ++ (chain_without s.map (op.map_value (fun v => (v, i))).key chain
        ++ post.flatten))
      (pre.flatten ++ (chain ++ post.flatten)) :=
    (List.Sublist.refl _).append (hsub.append (List.Sublist.refl _))
  cases op with
  | put key value malloc_ok =>
    simp only [map_op.map_value, map_op.key] at hrest
    cases malloc_ok with
    | false =>
      simp only [map_op.map_value, op_chain, Bool.false_eq_true, if_false]
      exact (hrest.map _).nodup hd
    | true =>
      simp only [map_op.map_value, op_chain, if_true, qb_list_add_tail]
      have hshape : pre.flatten ++ (chain_without s.map key chain ++ [⟨(value, i), key⟩]
            ++ post.flatten)
          = (pre.flatten ++ chain_without s.map key chain)
            ++ (⟨(value, i), key⟩ : hash_node K (V × Nat)) :: post.flatten := by
        simp
      rw [hshape, List.map_append, List.map_cons, List.nodup_middle, List.nodup_cons,
        ← List.map_append]
      refine ⟨fun hmem => ?_, ?_⟩
      · obtain ⟨n, hn, hni⟩ := List.mem_map.mp hmem
        have hn1 : n ∈ pre.flatten ++ (chain ++ post.flatten) :=
          hrest.subset (by simpa using hn)
        have := hbound n hn1
        simp only at hni
        omega
      · rw [List.append_assoc]
        exact (hrest.map _).nodup hd
  | rm key =>
    simp only [map_op.map_value, map_op.key] at hrest
    simp only [map_op.map_value, op_chain]
    exact (hrest.map _).nodup hd

theorem stamped_run {K V D : Type} (rest done : List (map_op K V))
    (s s1 : hash_table K (V × Nat) D)
    (h : apply_ops s (stamp_ops done.length rest) = some s1) (hsorted : stamps_sorted s)
    (hdistinct : stamps_distinct s)
    (hlive : ∀ n ∈ live_entries s, n.value.2 < done.length
      ∧ (done ++ rest)[n.value.2]? = some (map_op.put n.key n.value.1 true)) :
    stamps_sorted s1 ∧ stamps_distinct s1
      ∧ ∀ n ∈ live_entries s1,
          (done ++ rest)[n.value.2]? = some (map_op.put n.key n.value.1 true) := by
  induction rest generalizing done s with
  | nil =>
    simp only [stamp_ops, apply_ops, Option.some.injEq] at h
    subst h
    exact ⟨hsorted, hdistinct, fun n hn => (hlive n hn).2⟩
  | cons op rest ih =>
    simp only [stamp_ops, apply_ops] at h
    cases h2 : apply_op s (op.map_value (fun v => (v, done.length))) with
    | none => simp [h2] at h
    | some s2 =>
      simp only [h2] at h
      obtain ⟨hs2, hl2⟩ := stamped_step s s2 op done.length h2 hsorted
        (fun n hn => (hlive n hn).1)
      have hlen : (done ++ [op]).length = done.length + 1 := by simp
      have happ : done ++ [op] ++ rest = done ++ op :: rest := by simp
      rw [← hlen] at h
      have hd2 := stamped_step_distinct s s2 op done.length h2 (fun n hn => (hlive n hn).1)
        hdistinct
      have := ih (done ++ [op]) s2 h hs2 hd2 (fun n hn => by
        rw [happ, hlen]
        rcases hl2 n hn with h3 | ⟨h3, h4⟩
        · exact ⟨Nat.lt_succ_of_lt (hlive n h3).1, (hlive n h3).2⟩
        · refine ⟨by omega, ?_⟩
          rw [h3, List.getElem?_append_right (Nat.le_refl _), Nat.sub_self, ← h4]
          exact List.getElem?_cons_zero)
      rw [happ] at this
      exact this

/-- C7: on a table obtained from `qb_hashtable_create` by a sequence of `put`
and `remove` calls, an iteration with the recording visitor (which does not
touch the table and never signals stop) visits exactly the live entries, each
once: the chains of the buckets `0 .. hash_buckets_len - 1` in that order, each
chain from its head.  Within a chain the entries stand in the order in which
their `put` calls were performed, oldest first: running the same calls with
every value stamped with the position of its call gives the same table up to
the stamps, every entry of it carries the position of the successful `put` that
stored it, no two entries carry the same position, and the stamps increase
strictly along every chain.  The visited sequence depends on the table only, so
two iterations give the same one. -/
theorem foreach_in_put_order {K V D : Type} (deref : K → List Nat)
    (key_compare_func : K → K → D → Int) (key_compare_data : D)
    (key_destroy_func value_destroy_func : Bool) (max_size : Nat)
    (hash_fn : Option (K → Nat → Nat)) (fuel : Nat) (t0 t : hash_table K V D)
    (ops : List (map_op K V))
    (hcreate : qb_hashtable_create deref key_compare_func key_compare_data key_destroy_func
      value_destroy_func max_size hash_fn true fuel = create_result.returned t0)
    (hops : apply_ops t0 ops = some t) :
    hashtable_foreach t record_visit [] = some (live_entries t)
      ∧ t.hash_buckets.length = t.hash_buckets_len
      ∧ (∀ seen1 seen2, hashtable_foreach t record_visit [] = some seen1 →
          hashtable_foreach t record_visit [] = some seen2 → seen1 = seen2)
      ∧ ∃ s0 s : hash_table K (V × Nat) D,
          qb_hashtable_create deref key_compare_func key_compare_data key_destroy_func
            value_destroy_func max_size hash_fn true fuel = create_result.returned s0
          ∧ apply_ops s0 (stamp_ops 0 ops) = some s
          ∧ map_values Prod.fst s = t
          ∧ stamps_sorted s ∧ stamps_distinct s
          ∧ ∀ n ∈ live_entries s, ops[n.value.2]? = some (map_op.put n.key n.value.1 true) := by
  have hr0 : Reachable t0 := Reachable.create _ _ _ _ _ _ _ _ _ hcreate
  have hr : Reachable t := apply_ops_reachable ops t0 t hr0 hops
  refine ⟨foreach_record t hr, (reachable_inv t hr).1, fun a b h1 h2 => ?_, ?_⟩
  · rw [h1] at h2
    exact Option.some.inj h2
  · have hs0 : ∃ s0 : hash_table K (V × Nat) D,
        qb_hashtable_create deref key_compare_func key_compare_data key_destroy_func
          value_destroy_func max_size hash_fn true fuel = create_result.returned s0
        ∧ map_values Prod.fst s0 = t0 ∧ s0.hash_buckets = List.replicate s0.hash_buckets_len []
        := by
      unfold qb_hashtable_create at hcreate ⊢
      cases ho : order_loop fuel 0 (to_int32 max_size) with
      | none => simp [ho] at hcreate
      | some i =>
        simp only [ho, Bool.true_eq_false, if_false, create_result.returned.injEq] at hcreate ⊢
        subst hcreate
        refine ⟨_, rfl, ?_, rfl⟩
        simp [map_values, qb_map.retype]
    obtain ⟨s0, h1, h2, h3⟩ := hs0
    have herase := stamp_ops_erase ops 0 s0
    rw [h2, hops] at herase
    obtain ⟨s, h4, h5⟩ := Option.map_eq_some'.mp herase.symm
    have hempty : live_entries s0 = [] := by
      unfold live_entries
      rw [h3, List.flatten_replicate_nil]
    have hsorted0 : stamps_sorted s0 := by
      intro c hc
      rw [h3] at hc
      rw [(List.mem_replicate.mp hc).2]
      exact List.Pairwise.nil
    have hdistinct0 : stamps_distinct s0 := by
      unfold stamps_distinct
      rw [hempty]
      exact List.nodup_nil
    obtain ⟨h6, h7, h8⟩ := stamped_run ops [] s0 s h4 hsorted0 hdistinct0 (fun n hn => by
      rw [hempty] at hn
      cases hn)
    exact ⟨s0, s, h1, h4, h5, h6, h7, fun n hn => by simpa using h8 n hn⟩

theorem foreach_in_put_order_witness :
    hashtable_foreach demo_table_2 record_visit [] = some (live_entries demo_table_2)
      ∧ demo_table_2.hash_buckets.length = demo_table_2.hash_buckets_len
      ∧ (∀ seen1 seen2, hashtable_foreach demo_table_2 record_visit [] = some seen1 →
          hashtable_foreach demo_table_2 record_visit [] = some seen2 → seen1 = seen2)
      ∧ ∃ s0 s : hash_table Nat (Nat × Nat) Unit,
          qb_hashtable_create (fun _ => []) demo_compare () false false 0 (some demo_hash) true 32
            = create_result.returned s0
          ∧ apply_ops s0 (stamp_ops 0 [map_op.put 1 10 true, map_op.put 9 90 true]) = some s
          ∧ map_values Prod.fst s = demo_table_2
          ∧ stamps_sorted s ∧ stamps_distinct s
          ∧ ∀ n ∈ live_entries s,
              [map_op.put 1 10 true, map_op.put 9 90 true][n.value.2]?
                = some (map_op.put n.key n.value.1 true) :=
  foreach_in_put_order (fun _ => []) demo_compare () false false 0 (some demo_hash) 32
    demo_table demo_table_2 [map_op.put 1 10 true, map_op.put 9 90 true] rfl rfl

/-! ## Destroy notifications -/

theorem put_notified {K V D : Type} (t : hash_table K V D) (key : K) (value : V)
    (malloc_ok : Bool) (r : put_result K V D)
    (h : hashtable_put t key value malloc_ok = some r) :
    ∃ r1, hashtable_rm t key = some r1 ∧ r.notified = r1.notified
      ∧ (malloc_ok = false → r.ht = r1.ht ∧ r.errno = some ENOMEM)
      ∧ (malloc_ok = true → r.errno = none) := by
  unfold hashtable_put at h
  unfold hashtable_rm
  cases hr : hashtable_rm_with_hash t key (t.hash_fn key t.order) with
  | none => simp [hr] at h
  | some r1 =>
    refine ⟨r1, rfl, ?_⟩
    simp only [hr] at h
    cases malloc_ok with
    | false =>
      simp only [if_true, Option.some.injEq] at h
      subst h
      exact ⟨rfl, fun _ => ⟨rfl, rfl⟩, fun hx => (by cases hx)⟩
    | true =>
      simp only [Bool.true_eq_false, if_false] at h
      cases hb : r1.ht.hash_buckets[t.hash_fn key t.order]? with
      | none => simp [hb] at h
      | some chain =>
        simp only [hb, Option.some.injEq] at h
        subst h
        exact ⟨rfl, fun hx => (by cases hx), fun _ => rfl⟩

/-- C12 (as the code has it): on a reachable table, a `put(k, v)` whose node
allocation fails stores `ENOMEM` into `errno`, inserts nothing and does not
increment `count`; it leaves the table exactly as `remove(k)` leaves it.  So
`count` (indeed the whole table) is as before when no live entry's key compares
equal to `k`, and `count` is one less than before when the chain of the bucket
of `k` holds a key equal to `k`: that entry is unlinked before the allocation
is attempted.  The call is defined exactly when the hash of `k` is an index of
the bucket array. -/
theorem put_allocation_failure {K V D : Type} (t : hash_table K V D) (hr : Reachable t)
    (k : K) (v : V) :
    ((hashtable_put t k v false).isSome = true ↔ t.hash_fn k t.order < t.hash_buckets_len)
      ∧ ∀ r, hashtable_put t k v false = some r →
          r.errno = some ENOMEM
          ∧ (∃ r1, hashtable_rm t k = some r1 ∧ r.ht = r1.ht)
          ∧ List.Sublist (live_entries r.ht) (live_entries t)
          ∧ hashtable_count_get r.ht ≤ hashtable_count_get t
          ∧ ((∀ n ∈ live_entries t, ¬ keys_equal t.map n.key k) → r.ht = t)
          ∧ ((∃ chain, t.hash_buckets[t.hash_fn k t.order]? = some chain
                ∧ ∃ n ∈ chain, keys_equal t.map n.key k) →
              hashtable_count_get r.ht + 1 = hashtable_count_get t) := by
  have hinv := reachable_inv t hr
  refine ⟨⟨fun h => ?_, fun h => ?_⟩, fun r h => ?_⟩
  · obtain ⟨r, h1⟩ := Option.isSome_iff_exists.mp h
    obtain ⟨chain, hb, -⟩ := put_spec _ _ _ _ _ h1
    exact hinv.1 ▸ (List.getElem?_eq_some.mp hb).1
  · obtain ⟨r, h1⟩ := put_defined t k v false (hinv.1 ▸ h)
    rw [h1]; rfl
  · obtain ⟨r1, h1, -, h3, -⟩ := put_notified t k v false r h
    obtain ⟨hht, herr⟩ := h3 rfl
    obtain ⟨chain, hb, -, hbs, hcase⟩ := rm_with_hash_spec _ _ _ _ h1
    have hle := chain_length_le_count t hinv _ chain hb
    refine ⟨herr, ⟨r1, h1, hht⟩, ?_, ?_, fun hfresh => ?_, fun hpresent => ?_⟩
    · obtain ⟨pre, post, e1, -, e3⟩ := bucket_split _ _ _ hb
      unfold live_entries
      rw [hht, hbs, e3, e1]
      simp only [List.flatten_append, List.flatten_cons]
      exact (List.Sublist.refl _).append
        ((chain_without_sublist _ _ _).append (List.Sublist.refl _))
    · rw [hht]
      rcases hcase with ⟨-, -, h4⟩ | ⟨-, -, h4⟩
      · simp only [hashtable_count_get, h4]; omega
      · rw [h4]
    · rw [hht]
      rcases hcase with ⟨⟨n, hn, hk⟩, -⟩ | ⟨-, -, h4⟩
      · exact absurd hk (hfresh n (List.mem_flatten.mpr ⟨chain, bucket_mem hb, hn⟩))
      · exact h4
    · obtain ⟨chain1, hb1, n, hn, hk⟩ := hpresent
      rw [hb] at hb1
      cases hb1
      rw [hht]
      rcases hcase with ⟨-, -, h4⟩ | ⟨h5, -, -⟩
      · have hpos : 0 < chain.length := List.length_pos_of_mem hn
        simp only [hashtable_count_get, h4]
        omega
      · exact absurd hk (h5 n hn)

theorem put_allocation_failure_witness :
    ((hashtable_put demo_table_2 9 91 false).isSome = true
        ↔ demo_table_2.hash_fn 9 demo_table_2.order < demo_table_2.hash_buckets_len)
      ∧ ∀ r, hashtable_put demo_table_2 9 91 false = some r →
          r.errno = some ENOMEM
          ∧ (∃ r1, hashtable_rm demo_table_2 9 = some r1 ∧ r.ht = r1.ht)
          ∧ List.Sublist (live_entries r.ht) (live_entries demo_table_2)
          ∧ hashtable_count_get r.ht ≤ hashtable_count_get demo_table_2
          ∧ ((∀ n ∈ live_entries demo_table_2, ¬ keys_equal demo_table_2.map n.key 9) →
              r.ht = demo_table_2)
          ∧ ((∃ chain, demo_table_2.hash_buckets[demo_table_2.hash_fn 9 demo_table_2.order]?
                  = some chain
                ∧ ∃ n ∈ chain, keys_equal demo_table_2.map n.key 9) →
              hashtable_count_get r.ht + 1 = hashtable_count_get demo_table_2) :=
  put_allocation_failure demo_table_2 demo_reachable_2 9 91

/-- C12 (as stated) fails: on the reachable table holding only `(1, 10)`, the
`put(1, 99)` whose allocation fails sets `ENOMEM` and inserts nothing, but
`count` goes from 1 to 0 and `get(1)` then returns `NULL`: the old entry is
gone. -/
theorem failed_put_drops_entry :
    Reachable demo_table_1
      ∧ ∃ r, hashtable_put demo_table_1 1 99 false = some r
          ∧ r.errno = some ENOMEM
          ∧ hashtable_count_get demo_table_1 = 1
          ∧ hashtable_count_get r.ht = 0
          ∧ hashtable_count_get r.ht ≠ hashtable_count_get demo_table_1
          ∧ hashtable_get demo_table_1 1 = some (some 10)
          ∧ hashtable_get r.ht 1 = some none :=
  ⟨demo_reachable_1, _, rfl, rfl, rfl, rfl, by decide, rfl, rfl⟩

/-! ## Allocation failure inside `qb_hashtable_create` -/

/-- C13: what `qb_hashtable_create` does when `calloc` fails.  There is no test
of the pointer `calloc` returned: once the order loop has finished, the
function stores through the `NULL` pointer; it never reports an allocation
failure and never returns. -/
theorem create_calloc_failure {K V D : Type} (deref : K → List Nat)
    (key_compare_func : K → K → D → Int) (key_compare_data : D)
    (key_destroy_func value_destroy_func : Bool) (max_size : Nat)
    (hash_fn : Option (K → Nat → Nat)) (fuel : Nat) :
    (qb_hashtable_create deref key_compare_func key_compare_data key_destroy_func
        value_destroy_func max_size hash_fn false fuel : create_result K V D)
      = match order_loop fuel 0 (to_int32 max_size) with
        | none => create_result.no_return
        | some _ => create_result.null_dereference := by
  unfold qb_hashtable_create
  cases order_loop fuel 0 (to_int32 max_size) <;> rfl

/-- The call `qb_hashtable_create` with size hint 100 and a failing `calloc`
ends in a store through the `NULL` pointer. -/
theorem calloc_failure_example :
    (qb_hashtable_create (fun _ => []) demo_compare () false false 100 (some demo_hash)
        false 32 : create_result Nat Nat Unit) = create_result.null_dereference := rfl

/-! ## Hash functions -/

theorem hash_fnv_loop_eq_foldl (bs : List Nat) (h : Nat) (hbytes : ∀ b ∈ bs, b < 256) :
    hash_fnv_loop h bs
      = bs.foldl (fun h byte => ((h ^^^ byte) * 0x01000193) % 2 ^ 32) h := by
  induction bs generalizing h with
  | nil => rfl
  | cons b rest ih =>
    have hb : b % 256 = b := Nat.mod_eq_of_lt (hbytes b (List.mem_cons_self _ _))
    simp only [hash_fnv_loop, List.foldl_cons, hb, FNV_32_PRIME]
    exact ih _ (fun x hx => hbytes x (List.mem_cons_of_mem _ hx))

theorem hash_fnv_eq (bs : List Nat) (order : Nat) (hbytes : ∀ b ∈ bs, b < 256) :
    hash_fnv bs order = folded_index (fnv1a_fold bs) order := by
  simp only [hash_fnv, folded_index, fnv1a_fold, hash_fnv_loop_eq_foldl bs _ hbytes,
    Nat.one_shiftLeft]

theorem hash_fnv_lt (bs : List Nat) (order : Nat) : hash_fnv bs order < 2 ^ order := by
  simp only [hash_fnv, Nat.one_shiftLeft]
  exact Nat.and_lt_two_pow _ (Nat.sub_lt (Nat.pos_pow_of_pos order (by decide)) (by decide))

/-- The FNV-1a fold on known inputs: the empty string, `"a"` and `"foobar"`. -/
theorem fnv1a_test_vectors :
    hash_fnv_loop 0x811c9dc5 [] = 0x811c9dc5
      ∧ hash_fnv_loop 0x811c9dc5 [97] = 0xe40c292c
      ∧ hash_fnv_loop 0x811c9dc5 [102, 111, 111, 98, 97, 114] = 0xbf9cf968 := by
  decide

theorem strlen_before_nul (bs after : List Nat) (hbytes : ∀ b ∈ bs, b < 256)
    (hnz : ∀ b ∈ bs, b ≠ 0) : strlen (bs ++ 0 :: after) = bs.length := by
  have htake : List.takeWhile (fun c => decide (c % 256 ≠ 0)) (bs ++ 0 :: after) = bs := by
    induction bs with
    | nil => simp [List.takeWhile]
    | cons a rest ih =>
      have ha : a % 256 ≠ 0 := by
        rw [Nat.mod_eq_of_lt (hbytes a (List.mem_cons_self _ _))]
        exact hnz a (List.mem_cons_self _ _)
      simp only [List.cons_append, List.takeWhile_cons, ha, ne_eq, not_false_eq_true,
        decide_True, if_true]
      rw [ih (fun x hx => hbytes x (List.mem_cons_of_mem _ hx))
        (fun x hx => hnz x (List.mem_cons_of_mem _ hx))]
  rw [strlen, htake]

/-- What `qb_hash_string` hashes: of the bytes `bs` before the first NUL, the
first `bs.length mod 2 ^ 32`. -/
theorem qb_hash_string_eq (bs after : List Nat) (order : Nat) (hbytes : ∀ b ∈ bs, b < 256)
    (hnz : ∀ b ∈ bs, b ≠ 0) :
    qb_hash_string (bs ++ 0 :: after) order = hash_fnv (bs.take (bs.length % 2 ^ 32)) order := by
  rw [qb_hash_string, strlen_before_nul bs after hbytes hnz,
    List.take_append_of_le_length (Nat.mod_le _ _)]

/-- C14 (as the code has it): for every byte sequence `bs` and every order from
3 to 30, `hash_fnv(bs, order)` is `((h >> order) xor h) and (2 ^ order - 1)` for
`h` the 32-bit FNV-1a fold of `bs` (which is also that value modulo
`2 ^ order`); `qb_hash_string` applies this to the first `n mod 2 ^ 32` of the
`n` bytes before the first NUL, hence to all the bytes before the first NUL when
there are fewer than `2 ^ 32` of them; `qb_hash_char` applies it to the first
byte, and `qb_hash_pointer` to the first four bytes at the key reference. -/
theorem hash_fnv_is_folded_fnv1a (bs : List Nat) (order : Nat)
    (hbytes : ∀ b ∈ bs, b < 256) (_h3 : 3 ≤ order) (_h30 : order ≤ 30) :
    hash_fnv bs order = folded_index (fnv1a_fold bs) order
      ∧ hash_fnv bs order = ((fnv1a_fold bs >>> order) ^^^ fnv1a_fold bs) % 2 ^ order
      ∧ (∀ after, (∀ b ∈ bs, b ≠ 0) →
          qb_hash_string (bs ++ 0 :: after) order
            = folded_index (fnv1a_fold (bs.take (bs.length % 2 ^ 32))) order)
      ∧ (∀ after, (∀ b ∈ bs, b ≠ 0) → bs.length < 2 ^ 32 →
          qb_hash_string (bs ++ 0 :: after) order = folded_index (fnv1a_fold bs) order)
      ∧ (∀ b after, bs = b :: after →
          qb_hash_char bs order = folded_index (fnv1a_fold [b]) order)
      ∧ (∀ b0 b1 b2 b3 after, bs = b0 :: b1 :: b2 :: b3 :: after →
          qb_hash_pointer bs order = folded_index (fnv1a_fold [b0, b1, b2, b3]) order) := by
  have hstring : ∀ after, (∀ b ∈ bs, b ≠ 0) →
      qb_hash_string (bs ++ 0 :: after) order
        = folded_index (fnv1a_fold (bs.take (bs.length % 2 ^ 32))) order := by
    intro after hnz
    rw [qb_hash_string_eq bs after order hbytes hnz]
    exact hash_fnv_eq _ order (fun x hx => hbytes x (List.mem_of_mem_take hx))
  refine ⟨hash_fnv_eq bs order hbytes, ?_, hstring, fun after hnz hlen => ?_,
    fun b after hbs => ?_, fun b0 b1 b2 b3 after hbs => ?_⟩
  · rw [hash_fnv_eq bs order hbytes, folded_index, Nat.and_pow_two_sub_one_eq_mod]
  · rw [hstring after hnz, Nat.mod_eq_of_lt hlen, List.take_of_length_le (Nat.le_refl _)]
  · subst hbs
    rw [qb_hash_char]
    exact hash_fnv_eq _ order (fun x hx => hbytes x (by
      rw [List.take_succ_cons, List.take_zero] at hx
      rw [List.mem_singleton.mp hx]; exact List.mem_cons_self _ _))
  · subst hbs
    rw [qb_hash_pointer]
    exact hash_fnv_eq _ order (fun x hx => hbytes x (by
      simp only [List.take_succ_cons, List.take_zero, List.mem_cons, List.mem_singleton,
        List.not_mem_nil, or_false] at hx
      simp only [List.mem_cons]
      tauto))

theorem hash_fnv_is_folded_fnv1a_witness :
    hash_fnv [102, 111, 111, 98, 97, 114] 7
        = folded_index (fnv1a_fold [102, 111, 111, 98, 97, 114]) 7
      ∧ hash_fnv [102, 111, 111, 98, 97, 114] 7
        = ((fnv1a_fold [102, 111, 111, 98, 97, 114] >>> 7)
            ^^^ fnv1a_fold [102, 111, 111, 98, 97, 114]) % 2 ^ 7
      ∧ (∀ after, (∀ b ∈ [102, 111, 111, 98, 97, 114], b ≠ 0) →
          qb_hash_string ([102, 111, 111, 98, 97, 114] ++ 0 :: after) 7
            = folded_index (fnv1a_fold (([102, 111, 111, 98, 97, 114] : List Nat).take
                (([102, 111, 111, 98, 97, 114] : List Nat).length % 2 ^ 32))) 7)
      ∧ (∀ after, (∀ b ∈ [102, 111, 111, 98, 97, 114], b ≠ 0) →
          ([102, 111, 111, 98, 97, 114] : List Nat).length < 2 ^ 32 →
          qb_hash_string ([102, 111, 111, 98, 97, 114] ++ 0 :: after) 7
            = folded_index (fnv1a_fold [102, 111, 111, 98, 97, 114]) 7)
      ∧ (∀ b after, [102, 111, 111, 98, 97, 114] = b :: after →
          qb_hash_char [102, 111, 111, 98, 97, 114] 7 = folded_index (fnv1a_fold [b]) 7)
      ∧ (∀ b0 b1 b2 b3 after, [102, 111, 111, 98, 97, 114] = b0 :: b1 :: b2 :: b3 :: after →
          qb_hash_pointer [102, 111, 111, 98, 97, 114] 7
            = folded_index (fnv1a_fold [b0, b1, b2, b3]) 7) :=
  hash_fnv_is_folded_fnv1a [102, 111, 111, 98, 97, 114] 7 (by decide) (by decide) (by decide)

theorem fnv1a_fold_snoc (l : List Nat) (b : Nat) :
    fnv1a_fold (l ++ [b]) = ((fnv1a_fold l ^^^ b) * 0x01000193) % 2 ^ 32 := by
  simp only [fnv1a_fold, List.foldl_append, List.foldl_cons, List.foldl_nil]

theorem fnv1a_foldl_lt (l : List Nat) (init : Nat) (h : init < 2 ^ 32) :
    l.foldl (fun h byte => ((h ^^^ byte) * 0x01000193) % 2 ^ 32) init < 2 ^ 32 := by
  induction l generalizing init with
  | nil => exact h
  | cons a rest ih => exact ih _ (Nat.mod_lt _ (by decide))

theorem fnv1a_fold_lt (l : List Nat) : fnv1a_fold l < 2 ^ 32 :=
  fnv1a_foldl_lt l _ (by decide)

/-- One step of the fold is injective in the byte: the prime is odd, hence
invertible modulo `2 ^ 32`. -/
theorem fnv_step_injective (h b c : Nat) (hh : h < 2 ^ 32) (hb : b < 2 ^ 32) (hc : c < 2 ^ 32)
    (heq : ((h ^^^ b) * 0x01000193) % 2 ^ 32 = ((h ^^^ c) * 0x01000193) % 2 ^ 32) : b = c := by
  have hxb : h ^^^ b < 2 ^ 32 := Nat.xor_lt_two_pow hh hb
  have hxc : h ^^^ c < 2 ^ 32 := Nat.xor_lt_two_pow hh hc
  have hinv : ∀ a : Nat, ((a * 16777619) % 4294967296 * 899433627) % 4294967296
      = a % 4294967296 := fun a => by omega
  have hx : h ^^^ b = h ^^^ c := by
    have h1 := hinv (h ^^^ b)
    have h2 := hinv (h ^^^ c)
    norm_num at heq hxb hxc
    rw [heq] at h1
    omega
  exact Nat.xor_right_inj.mp hx

/-- Two 32-bit values with the same top two bits and the same 30-bit folded
index are equal. -/
theorem folded_index_30_injective (x y : Nat) (ht : x / 2 ^ 30 = y / 2 ^ 30)
    (hf : folded_index x 30 = folded_index y 30) : x = y := by
  have hlow : x % 2 ^ 30 = y % 2 ^ 30 := by
    apply Nat.eq_of_testBit_eq
    intro i
    simp only [folded_index, Nat.and_pow_two_sub_one_eq_mod, Nat.shiftRight_eq_div_pow, ht] at hf
    have hbit := congrArg (fun n => n.testBit i) hf
    simp only [Nat.testBit_mod_two_pow, Nat.testBit_xor] at hbit ⊢
    by_cases hi : i < 30
    · simp only [hi, decide_True, Bool.true_and] at hbit ⊢
      cases hx : x.testBit i <;> cases hy : y.testBit i <;>
        cases h3 : (y / 2 ^ 30).testBit i <;> simp_all
    · simp [hi]
  have h1 := Nat.div_add_mod x (2 ^ 30)
  have h2 := Nat.div_add_mod y (2 ^ 30)
  rw [ht, hlow] at h1
  omega

theorem take_one_replicate {N : Type} (n : Nat) (hn : 0 < n) (a : N) (l : List N) :
    (List.replicate n a ++ l).take 1 = [a] := by
  cases n with
  | zero => omega
  | succ m => simp [List.replicate_succ]

/-- A key with `2 ^ 32 + 1` bytes before the first NUL: `strlen` converted to
`uint32_t` is 1, and `qb_hash_string` hashes the first byte only. -/
theorem long_key_hashes_first_byte (b : Nat) (after : List Nat) (order : Nat)
    (hb0 : b ≠ 0) (hb : b < 256) :
    qb_hash_string (List.replicate (2 ^ 32) 1 ++ [b] ++ 0 :: after) order
      = hash_fnv [1] order := by
  have hmem : ∀ x ∈ List.replicate (2 ^ 32) 1 ++ [b], x < 256 ∧ x ≠ 0 := by
    intro x hx
    rcases List.mem_append.mp hx with h1 | h1
    · rw [(List.mem_replicate.mp h1).2]
      exact ⟨by decide, by decide⟩
    · rw [List.mem_singleton.mp h1]
      exact ⟨hb, hb0⟩
  rw [qb_hash_string_eq _ after order (fun x hx => (hmem x hx).1) (fun x hx => (hmem x hx).2),
    List.length_append, List.length_replicate, List.length_singleton,
    show (2 ^ 32 + 1) % 2 ^ 32 = 1 from by decide,
    take_one_replicate _ (by decide)]

/-- C14 (as stated) fails for keys of `2 ^ 32` or more bytes.  For each of the
five keys made of `2 ^ 32` bytes `1`, one more byte `b` from 1 to 5, and the
NUL, `qb_hash_string` hashes the first byte only and returns the same index;
the folded FNV-1a hash of all the bytes before the NUL cannot be that index for
all five of them. -/
theorem long_string_hash_ignores_tail :
    (∀ b ∈ [1, 2, 3, 4, 5],
        qb_hash_string (List.replicate (2 ^ 32) 1 ++ [b] ++ [0]) 30 = hash_fnv [1] 30)
      ∧ ¬ ∀ b ∈ [1, 2, 3, 4, 5],
          qb_hash_string (List.replicate (2 ^ 32) 1 ++ [b] ++ [0]) 30
            = folded_index (fnv1a_fold (List.replicate (2 ^ 32) 1 ++ [b])) 30 := by
  have hcode : ∀ b ∈ [1, 2, 3, 4, 5],
      qb_hash_string (List.replicate (2 ^ 32) 1 ++ [b] ++ [0]) 30 = hash_fnv [1] 30 := by
    intro b hb
    have hb1 : b ≠ 0 ∧ b < 256 := by
      simp only [List.mem_cons, List.mem_singleton, List.not_mem_nil, or_false] at hb
      omega
    exact long_key_hashes_first_byte b [] 30 hb1.1 hb1.2
  refine ⟨hcode, fun hall => ?_⟩
  have hval : ∀ b ∈ [1, 2, 3, 4, 5],
      folded_index (((fnv1a_fold (List.replicate (2 ^ 32) 1) ^^^ b) * 0x01000193) % 2 ^ 32) 30
        = hash_fnv [1] 30 := by
    intro b hb
    rw [← fnv1a_fold_snoc, ← hall b hb]
    exact hcode b hb
  have hH := fnv1a_fold_lt (List.replicate (2 ^ 32) 1)
  generalize fnv1a_fold (List.replicate (2 ^ 32) 1) = H at hval hH
  have hpair : ∀ b c, b ∈ [1, 2, 3, 4, 5] → c ∈ [1, 2, 3, 4, 5] →
      ((H ^^^ b) * 0x01000193) % 2 ^ 32 / 2 ^ 30 = ((H ^^^ c) * 0x01000193) % 2 ^ 32 / 2 ^ 30 →
      b = c := by
    intro b c hb hc ht
    have hb1 : b < 2 ^ 32 := by
      simp only [List.mem_cons, List.mem_singleton, List.not_mem_nil, or_false] at hb
      omega
    have hc1 : c < 2 ^ 32 := by
      simp only [List.mem_cons, List.mem_singleton, List.not_mem_nil, or_false] at hc
      omega
    exact fnv_step_injective H b c hH hb1 hc1
      (folded_index_30_injective _ _ ht ((hval b hb).trans (hval c hc).symm))
  have htop : ∀ b, ((H ^^^ b) * 0x01000193) % 2 ^ 32 / 2 ^ 30 < 4 := by
    intro b
    have := Nat.mod_lt ((H ^^^ b) * 0x01000193) (show 0 < 2 ^ 32 by decide)
    omega
  have h1 := htop 1
  have h2 := htop 2
  have h3 := htop 3
  have h4 := htop 4
  have h5 := htop 5
  have p12 := hpair 1 2 (by decide) (by decide)
  have p13 := hpair 1 3 (by decide) (by decide)
  have p14 := hpair 1 4 (by decide) (by decide)
  have p15 := hpair 1 5 (by decide) (by decide)
  have p23 := hpair 2 3 (by decide) (by decide)
  have p24 := hpair 2 4 (by decide) (by decide)
  have p25 := hpair 2 5 (by decide) (by decide)
  have p34 := hpair 3 4 (by decide) (by decide)
  have p35 := hpair 3 5 (by decide) (by decide)
  have p45 := hpair 4 5 (by decide) (by decide)
  omega

/-! ## Bucket indices stay inside the bucket array -/

/-- The order loop on a non-negative `n` is still running when fewer
iterations than `n` has binary digits have been followed. -/
theorem order_loop_short (fuel i m : Nat) (hfuel : fuel < m.size) :
    order_loop fuel i (m : Int) = none := by
  induction fuel generalizing i m with
  | zero =>
    have hm : m ≠ 0 := fun h => by rw [h, Nat.size_zero] at hfuel; omega
    have hne : (m : Int) ≠ 0 := by exact_mod_cast hm
    unfold order_loop
    simp [hne]
  | succ f ih =>
    have hm : m ≠ 0 := fun h => by rw [h, Nat.size_zero] at hfuel; omega
    have hne : (m : Int) ≠ 0 := by exact_mod_cast hm
    have hs := size_half m hm
    have hshift : (m : Int) >>> 1 = ((m / 2 : Nat) : Int) := by
      have h0 : (m : Int) >>> 1 = ((m >>> 1 : Nat) : Int) := rfl
      rw [h0, Nat.shiftRight_eq_div_pow, Nat.pow_one]
    unfold order_loop
    simp only [hne, if_false, hshift]
    exact ih (i + 1) (m / 2) (by omega)

theorem to_int32_cases (x : Nat) :
    to_int32 x < 0 ∨ (to_int32 x = ((x % 2 ^ 32 : Nat) : Int) ∧ x % 2 ^ 32 < 2 ^ 31) := by
  unfold to_int32
  by_cases h : x % 2 ^ 32 < 2 ^ 31
  · exact Or.inr ⟨by simp only [h, if_true], h⟩
  · left
    simp only [h, if_false]
    have : x % 2 ^ 32 < 2 ^ 32 := Nat.mod_lt _ (by decide)
    omega

/-- When the order loop stops, the hint read as `int32_t` was not negative and
the loop has made as many iterations as the converted hint has binary digits. -/
theorem order_loop_result (fuel i max_size : Nat)
    (h : order_loop fuel 0 (to_int32 max_size) = some i) :
    max_size % 2 ^ 32 < 2 ^ 31 ∧ i = (max_size % 2 ^ 32).size ∧ i ≤ fuel ∧ i ≤ 31 := by
  rcases to_int32_cases max_size with hneg | ⟨hconv, hlt⟩
  · rw [order_loop_negative fuel 0 _ hneg] at h
    cases h
  · rw [hconv] at h
    by_cases hf : (max_size % 2 ^ 32).size ≤ fuel
    · rw [order_loop_nonneg fuel 0 _ hf, Nat.zero_add] at h
      have hi : (max_size % 2 ^ 32).size = i := Option.some.inj h
      exact ⟨hlt, hi.symm, hi ▸ hf, hi ▸ Nat.size_le.mpr hlt⟩
    · rw [order_loop_short fuel 0 _ (by omega)] at h
      cases h

theorem create_returned_shape {K V D : Type} (deref : K → List Nat)
    (key_compare_func : K → K → D → Int) (key_compare_data : D)
    (key_destroy_func value_destroy_func : Bool) (max_size : Nat)
    (hash_fn : Option (K → Nat → Nat)) (calloc_ok : Bool) (fuel : Nat) (t : hash_table K V D)
    (h : qb_hashtable_create deref key_compare_func key_compare_data key_destroy_func
      value_destroy_func max_size hash_fn calloc_ok fuel = create_result.returned t) :
    t.order = max 3 (max_size % 2 ^ 32).size ∧ t.order ≤ 31
      ∧ t.hash_buckets_len = 2 ^ t.order
      ∧ t.hash_buckets = List.replicate t.hash_buckets_len []
      ∧ t.hash_fn = hash_fn.getD (fun key order => qb_hash_pointer (deref key) order) := by
  obtain ⟨i, h1, h2, -, h4, h5, -⟩ := create_returned _ _ _ _ _ _ _ _ _ _ h
  obtain ⟨-, h6, -, h7⟩ := order_loop_result fuel i max_size h1
  have hmax : QB_MAX i 3 = max 3 i := by
    unfold QB_MAX
    split <;> omega
  have hord : t.order ≤ 31 := by rw [h2, hmax]; omega
  refine ⟨by rw [h2, hmax, h6], hord, ?_, h5, ?_⟩
  · rw [h4, Nat.one_shiftLeft]
    exact Nat.mod_eq_of_lt (Nat.pow_lt_pow_right (by decide) (by omega))
  · unfold qb_hashtable_create at h
    simp only [h1] at h
    cases calloc_ok with
    | false => simp at h
    | true =>
      simp only [Bool.true_eq_false, if_false, create_result.returned.injEq] at h
      subst h
      cases hash_fn <;> rfl

theorem apply_ops_defined {K V D : Type} (ops : List (map_op K V)) (t : hash_table K V D)
    (hr : Reachable t) (hrange : hash_in_range t) :
    ∃ t1, apply_ops t ops = some t1 ∧ same_config t t1 := by
  induction ops generalizing t with
  | nil => exact ⟨t, rfl, rfl, rfl, rfl, rfl⟩
  | cons op rest ih =>
    obtain ⟨t1, h1⟩ := apply_op_defined t op (reachable_inv t hr).1 hrange
    have hc := apply_op_config _ _ _ h1
    have hrange1 : hash_in_range t1 := by
      intro k
      rw [hc.2.2.1, hc.2.1, hc.2.2.2]
      exact hrange k
    obtain ⟨t2, h2, hc2⟩ := ih t1 (apply_op_reachable _ _ _ hr h1) hrange1
    refine ⟨t2, by simp only [apply_ops, h1, h2], ?_⟩
    exact ⟨hc2.1.trans hc.1, hc2.2.1.trans hc.2.1, hc2.2.2.1.trans hc.2.2.1,
      hc2.2.2.2.trans hc.2.2.2⟩

/-- C15: each of `qb_hash_string`, `qb_hash_char` and `qb_hash_pointer` returns
a value below `2 ^ order`, for every key byte sequence and every order (in
particular from 3 to 30); hence on a table built by `qb_hashtable_create` with
one of them (or with `NULL`, which selects `qb_hash_pointer`), after any
sequence of `put` and `remove` calls, the index that `put`, `get` and `remove`
compute for any key lies inside the bucket array and none of them takes the
out-of-range branch. -/
theorem canonical_hash_in_range {K V D : Type} (deref : K → List Nat)
    (key_compare_func : K → K → D → Int) (key_compare_data : D)
    (key_destroy_func value_destroy_func : Bool) (max_size : Nat)
    (hash_fn : Option (K → Nat → Nat)) (fuel : Nat) (t0 : hash_table K V D)
    (hfn : hash_fn = none
      ∨ hash_fn = some (fun key order => qb_hash_string (deref key) order)
      ∨ hash_fn = some (fun key order => qb_hash_char (deref key) order)
      ∨ hash_fn = some (fun key order => qb_hash_pointer (deref key) order))
    (hcreate : qb_hashtable_create deref key_compare_func key_compare_data key_destroy_func
      value_destroy_func max_size hash_fn true fuel = create_result.returned t0) :
    (∀ (key : List Nat) (order : Nat), qb_hash_string key order < 2 ^ order
        ∧ qb_hash_char key order < 2 ^ order ∧ qb_hash_pointer key order < 2 ^ order)
      ∧ ∀ ops : List (map_op K V), ∃ t, apply_ops t0 ops = some t
          ∧ ∀ key, t.hash_fn key t.order < t.hash_buckets.length
              ∧ (hashtable_get t key).isSome = true
              ∧ (hashtable_rm t key).isSome = true
              ∧ ∀ value malloc_ok, (hashtable_put t key value malloc_ok).isSome = true := by
  refine ⟨fun key order => ⟨hash_fnv_lt _ _, hash_fnv_lt _ _, hash_fnv_lt _ _⟩, fun ops => ?_⟩
  obtain ⟨-, -, hlen, -, hhash⟩ := create_returned_shape _ _ _ _ _ _ _ _ _ _ hcreate
  have hr0 : Reachable t0 := Reachable.create _ _ _ _ _ _ _ _ _ hcreate
  have hrange0 : hash_in_range t0 := by
    intro key
    rw [hlen, hhash]
    rcases hfn with h | h | h | h <;> subst h <;> exact hash_fnv_lt _ _
  obtain ⟨t, h1, hc⟩ := apply_ops_defined ops t0 hr0 hrange0
  have hinv := reachable_inv t (apply_ops_reachable ops t0 t hr0 h1)
  refine ⟨t, h1, fun key => ?_⟩
  have hidx : t.hash_fn key t.order < t.hash_buckets.length := by
    rw [hinv.1, hc.2.2.1, hc.2.1, hc.2.2.2]
    exact hrange0 key
  refine ⟨hidx, ?_, ?_, fun value malloc_ok => ?_⟩
  · rw [get_eq, List.getElem?_eq_getElem hidx]
    rfl
  · obtain ⟨r, h⟩ := rm_with_hash_defined t key _ hidx
    show (hashtable_rm_with_hash t key (t.hash_fn key t.order)).isSome = true
    rw [h]; rfl
  · obtain ⟨r, h⟩ := put_defined t key value malloc_ok hidx
    rw [h]; rfl

theorem canonical_hash_in_range_witness :
    (∀ (key : List Nat) (order : Nat), qb_hash_string key order < 2 ^ order
        ∧ qb_hash_char key order < 2 ^ order ∧ qb_hash_pointer key order < 2 ^ order)
      ∧ ∀ ops : List (map_op Nat Nat), ∃ t, apply_ops demo_pointer_table ops = some t
          ∧ ∀ key, t.hash_fn key t.order < t.hash_buckets.length
              ∧ (hashtable_get t key).isSome = true
              ∧ (hashtable_rm t key).isSome = true
              ∧ ∀ value malloc_ok, (hashtable_put t key value malloc_ok).isSome = true :=
  canonical_hash_in_range demo_deref demo_compare () false false 100 none 32
    demo_pointer_table (Or.inl rfl) rfl

/-! ## Placement of the entries -/

/-- C16: in every reachable table, every live entry sits in the bucket chain
whose index is `hash_fn(entry.key, order)`, which is below the bucket count (so
it is also that hash modulo the bucket count), and in no chain of another
index. -/
theorem entry_in_hash_bucket {K V D : Type} (t : hash_table K V D) (hr : Reachable t)
    (n : hash_node K V) (hn : n ∈ live_entries t) :
    t.hash_fn n.key t.order < t.hash_buckets_len
      ∧ (∃ chain, t.hash_buckets[t.hash_fn n.key t.order % t.hash_buckets_len]? = some chain
          ∧ n ∈ chain)
      ∧ ∀ j chain1, t.hash_buckets[j]? = some chain1 → n ∈ chain1 →
          j = t.hash_fn n.key t.order % t.hash_buckets_len := by
  have hp := reachable_placed t hr
  have hinv := reachable_inv t hr
  obtain ⟨chain, hb, hnc⟩ := live_entry_bucket t hp n hn
  have hlt : t.hash_fn n.key t.order < t.hash_buckets_len :=
    hinv.1 ▸ (List.getElem?_eq_some.mp hb).1
  rw [Nat.mod_eq_of_lt hlt]
  exact ⟨hlt, ⟨chain, hb, hnc⟩, fun j chain1 hj hn1 => (hp j chain1 hj n hn1).symm⟩

theorem entry_in_hash_bucket_witness :
    demo_table_2.hash_fn 9 demo_table_2.order < demo_table_2.hash_buckets_len
      ∧ (∃ chain, demo_table_2.hash_buckets[
            demo_table_2.hash_fn 9 demo_table_2.order % demo_table_2.hash_buckets_len]?
            = some chain
          ∧ (⟨90, 9⟩ : hash_node Nat Nat) ∈ chain)
      ∧ ∀ j chain1, demo_table_2.hash_buckets[j]? = some chain1 →
          (⟨90, 9⟩ : hash_node Nat Nat) ∈ chain1 →
          j = demo_table_2.hash_fn 9 demo_table_2.order % demo_table_2.hash_buckets_len :=
  entry_in_hash_bucket demo_table_2 demo_reachable_2 ⟨90, 9⟩
    (by simp [live_entries, demo_table_2])

/-! ## Position of a replaced key -/

theorem chain_without_split {K V D : Type} (m : qb_map K V D) (key : K)
    (pre post : List (hash_node K V)) (n : hash_node K V)
    (hpre : ∀ x ∈ pre, ¬ keys_equal m x.key key) (hk : keys_equal m n.key key) :
    chain_without m key (pre ++ n :: post) = pre ++ post := by
  induction pre with
  | nil => simp [chain_without, show m.key_compare_func n.key key m.key_compare_data = 0 from hk]
  | cons a rest ih =>
    have ha : ¬ m.key_compare_func a.key key m.key_compare_data = 0 :=
      hpre a (List.mem_cons_self _ _)
    have hrest := ih (fun x hx => hpre x (List.mem_cons_of_mem _ hx))
    simp only [List.cons_append, chain_without, ha, if_false]
    exact congrArg (List.cons a) hrest

/-- C18: on a reachable table (comparison an equivalence relation, hash
consistent with it) with a live entry `n` whose key compares equal to `k`,
`put(k, v)` with a successful allocation is defined; the entry `n` sits in the
chain of the bucket of `k`, no other node of that chain equals `k`, and after
the call that chain is the previous chain with `n` deleted, the remaining
entries in their previous order, followed by the new entry `(k, v)` as last
element; every other bucket chain is unchanged. -/
theorem put_moves_key_to_tail {K V D : Type} (t : hash_table K V D) (hr : Reachable t)
    (he : compare_equivalence t.map) (hh : hash_respects_compare t) (k : K) (v : V)
    (n : hash_node K V) (hn : n ∈ live_entries t) (hk : keys_equal t.map n.key k) :
    ∃ r pre post, hashtable_put t k v true = some r
      ∧ t.hash_buckets[t.hash_fn k t.order]? = some (pre ++ n :: post)
      ∧ (∀ x ∈ pre ++ post, ¬ keys_equal t.map x.key k)
      ∧ r.ht.hash_buckets[t.hash_fn k t.order]? = some (pre ++ post ++ [⟨v, k⟩])
      ∧ ∀ j, j ≠ t.hash_fn k t.order → r.ht.hash_buckets[j]? = t.hash_buckets[j]? := by
  obtain ⟨chain, hb, hnc⟩ := live_entry_bucket t (reachable_placed t hr) n hn
  rw [hh _ _ hk] at hb
  have hlen : t.hash_fn k t.order < t.hash_buckets.length := (List.getElem?_eq_some.mp hb).1
  obtain ⟨r, h⟩ := put_defined t k v true hlen
  obtain ⟨pre, post, hsplit⟩ := List.append_of_mem hnc
  have hu := reachable_unique t hr he chain (bucket_mem hb)
  rw [hsplit, List.pairwise_append, List.pairwise_cons] at hu
  obtain ⟨-, ⟨hpost, -⟩, hcross⟩ := hu
  have hother : ∀ x ∈ pre ++ post, ¬ keys_equal t.map x.key k := by
    intro x hx hxk
    rcases List.mem_append.mp hx with h1 | h1
    · exact hcross x h1 n (List.mem_cons_self _ _) (he.trans _ _ _ hxk (he.symm _ _ hk))
    · exact hpost x h1 (he.trans _ _ _ hk (he.symm _ _ hxk))
  obtain ⟨chain1, hb1, -, hbs, -⟩ := put_spec _ _ _ _ _ h
  rw [hb] at hb1
  cases hb1
  refine ⟨r, pre, post, h, hsplit ▸ hb, hother, ?_, fun j hj => ?_⟩
  · rw [hbs, List.getElem?_set_self hlen, hsplit,
      chain_without_split t.map k pre post n
        (fun x hx => hother x (List.mem_append_left _ hx)) hk]
    rfl
  · rw [hbs, List.getElem?_set_ne (Ne.symm hj)]

theorem put_moves_key_to_tail_witness :
    ∃ r pre post, hashtable_put demo_table_2 1 11 true = some r
      ∧ demo_table_2.hash_buckets[demo_table_2.hash_fn 1 demo_table_2.order]?
          = some (pre ++ (⟨10, 1⟩ : hash_node Nat Nat) :: post)
      ∧ (∀ x ∈ pre ++ post, ¬ keys_equal demo_table_2.map x.key 1)
      ∧ r.ht.hash_buckets[demo_table_2.hash_fn 1 demo_table_2.order]?
          = some (pre ++ post ++ [⟨11, 1⟩])
      ∧ ∀ j, j ≠ demo_table_2.hash_fn 1 demo_table_2.order →
          r.ht.hash_buckets[j]? = demo_table_2.hash_buckets[j]? :=
  put_moves_key_to_tail demo_table_2 demo_reachable_2 demo_equivalence demo_respects 1 11
    ⟨10, 1⟩ (by simp [live_entries, demo_table_2]) (by decide)

/-! ## The order loop -/

theorem bitlength_spec (n : Nat) :
    n < 2 ^ bitlength n ∧ ∀ e, n < 2 ^ e → bitlength n ≤ e :=
  ⟨Nat.lt_size_self n, fun _ h => Nat.size_le.mpr h⟩

/-- C19 (as the code has it): when the size hint converted to `int32_t` is a
non-negative number `n` (`n` is the hint modulo `2 ^ 32`, and the hint itself
when it is below `2 ^ 31`), the order loop of `qb_hashtable_create` stops after
exactly `bitlength(n)` iterations: it has stopped once that many iterations
have been followed and not before; the order of the table is
`max(3, bitlength(n))`, and `2 ^ order` is strictly greater than `n`. -/
theorem order_loop_terminates {K V D : Type} (deref : K → List Nat)
    (key_compare_func : K → K → D → Int) (key_compare_data : D)
    (key_destroy_func value_destroy_func : Bool) (max_size : Nat)
    (hash_fn : Option (K → Nat → Nat)) (hnonneg : 0 ≤ to_int32 max_size) :
    to_int32 max_size = ((max_size % 2 ^ 32 : Nat) : Int)
      ∧ (max_size < 2 ^ 31 → max_size % 2 ^ 32 = max_size)
      ∧ (∀ fuel, bitlength (max_size % 2 ^ 32) ≤ fuel →
          order_loop fuel 0 (to_int32 max_size) = some (bitlength (max_size % 2 ^ 32)))
      ∧ (∀ fuel, fuel < bitlength (max_size % 2 ^ 32) →
          order_loop fuel 0 (to_int32 max_size) = none)
      ∧ ∀ fuel, bitlength (max_size % 2 ^ 32) ≤ fuel →
          ∃ t : hash_table K V D,
            qb_hashtable_create deref key_compare_func key_compare_data key_destroy_func
              value_destroy_func max_size hash_fn true fuel = create_result.returned t
            ∧ t.order = max 3 (bitlength (max_size % 2 ^ 32))
            ∧ max_size % 2 ^ 32 < 2 ^ t.order := by
  rcases to_int32_cases max_size with hneg | ⟨hconv, hlt⟩
  · omega
  · have hloop : ∀ fuel, bitlength (max_size % 2 ^ 32) ≤ fuel →
        order_loop fuel 0 (to_int32 max_size) = some (bitlength (max_size % 2 ^ 32)) := by
      intro fuel hf
      rw [hconv, order_loop_nonneg fuel 0 _ hf, Nat.zero_add]
      rfl
    refine ⟨hconv, fun h => Nat.mod_eq_of_lt (by omega), hloop, fun fuel hf => ?_,
      fun fuel hf => ?_⟩
    · rw [hconv]
      exact order_loop_short fuel 0 _ hf
    · have hcreate : ∃ t : hash_table K V D,
          qb_hashtable_create deref key_compare_func key_compare_data key_destroy_func
            value_destroy_func max_size hash_fn true fuel = create_result.returned t := by
        simp only [qb_hashtable_create, hloop fuel hf, Bool.true_eq_false, if_false]
        exact ⟨_, rfl⟩
      obtain ⟨t, ht⟩ := hcreate
      obtain ⟨h1, -, -, -, -⟩ := create_returned_shape _ _ _ _ _ _ _ _ _ _ ht
      refine ⟨t, ht, h1, ?_⟩
      rw [h1]
      exact lt_of_lt_of_le (Nat.lt_size_self _)
        (Nat.pow_le_pow_right (by decide) (le_max_right _ _))

theorem order_loop_terminates_witness :
    to_int32 100 = ((100 % 2 ^ 32 : Nat) : Int)
      ∧ (100 < 2 ^ 31 → 100 % 2 ^ 32 = 100)
      ∧ (∀ fuel, bitlength (100 % 2 ^ 32) ≤ fuel →
          order_loop fuel 0 (to_int32 100) = some (bitlength (100 % 2 ^ 32)))
      ∧ (∀ fuel, fuel < bitlength (100 % 2 ^ 32) → order_loop fuel 0 (to_int32 100) = none)
      ∧ ∀ fuel, bitlength (100 % 2 ^ 32) ≤ fuel →
          ∃ t : hash_table Nat Nat Unit,
            qb_hashtable_create (fun _ => []) demo_compare () false false 100 (some demo_hash)
              true fuel = create_result.returned t
            ∧ t.order = max 3 (bitlength (100 % 2 ^ 32))
            ∧ 100 % 2 ^ 32 < 2 ^ t.order :=
  order_loop_terminates (fun _ => []) demo_compare () false false 100 (some demo_hash)
    (by decide)

/-- C19 (as stated) fails: the size hint `2 ^ 32` is non-negative after the
conversion to `int32_t` (it becomes 0), but the loop makes 0 iterations, not
`bitlength(2 ^ 32) = 33`, the order is 3, and `2 ^ 3` is not greater than the
hint. -/
theorem order_loop_sees_low_bits_only :
    0 ≤ to_int32 (2 ^ 32)
      ∧ order_loop 32 0 (to_int32 (2 ^ 32)) = some 0
      ∧ bitlength (2 ^ 32) = 33
      ∧ ∃ t : hash_table Nat Nat Unit,
          qb_hashtable_create (fun _ => []) demo_compare () false false (2 ^ 32)
            (some demo_hash) true 32 = create_result.returned t
          ∧ t.order = 3 ∧ t.order ≠ max 3 (bitlength (2 ^ 32)) ∧ ¬ (2 ^ 32 < 2 ^ t.order) := by
  refine ⟨by decide, rfl, Nat.size_pow, _, rfl, rfl, ?_, by decide⟩
  show 3 ≠ max 3 (bitlength (2 ^ 32))
  rw [show bitlength (2 ^ 32) = 33 from Nat.size_pow]
  decide

/-! ## Lookups of other keys -/

/-- C20: on a reachable table whose comparison callback is an equivalence
relation, for keys `k` and `k1` that compare unequal, `get(k1)` returns after
`put(k, v)` (allocation succeeding or not) and after `remove(k)` what it
returned before: an absent `k1` stays absent and a present `k1` keeps its
value.  Each of the two calls is defined exactly when the hash of `k` is an
index of the bucket array. -/
theorem get_unaffected_by_other_key {K V D : Type} (t : hash_table K V D) (hr : Reachable t)
    (he : compare_equivalence t.map) (k k1 : K) (hk : ¬ keys_equal t.map k k1) :
    (∀ v malloc_ok r, hashtable_put t k v malloc_ok = some r →
        hashtable_get r.ht k1 = hashtable_get t k1)
      ∧ (∀ r, hashtable_rm t k = some r → hashtable_get r.ht k1 = hashtable_get t k1)
      ∧ (∀ v malloc_ok, (hashtable_put t k v malloc_ok).isSome = true
          ↔ t.hash_fn k t.order < t.hash_buckets_len)
      ∧ ((hashtable_rm t k).isSome = true ↔ t.hash_fn k t.order < t.hash_buckets_len) := by
  have hinv := reachable_inv t hr
  refine ⟨fun v malloc_ok r h => get_after_put_other t k1 k v malloc_ok r he hk h,
    fun r h => get_after_rm_other t k1 k r he hk h,
    fun v malloc_ok => ⟨fun h => ?_, fun h => ?_⟩, ⟨fun h => ?_, fun h => ?_⟩⟩
  · obtain ⟨r, h1⟩ := Option.isSome_iff_exists.mp h
    obtain ⟨chain, hb, -⟩ := put_spec _ _ _ _ _ h1
    exact hinv.1 ▸ (List.getElem?_eq_some.mp hb).1
  · obtain ⟨r, h1⟩ := put_defined t k v malloc_ok (hinv.1 ▸ h)
    rw [h1]; rfl
  · obtain ⟨r, h1⟩ := Option.isSome_iff_exists.mp h
    obtain ⟨chain, hb, -⟩ := rm_with_hash_spec _ _ _ _ h1
    exact hinv.1 ▸ (List.getElem?_eq_some.mp hb).1
  · obtain ⟨r, h1⟩ := rm_with_hash_defined t k (t.hash_fn k t.order) (hinv.1 ▸ h)
    show (hashtable_rm_with_hash t k (t.hash_fn k t.order)).isSome = true
    rw [h1]; rfl

theorem get_unaffected_by_other_key_witness :
    (∀ v malloc_ok r, hashtable_put demo_table_2 1 v malloc_ok = some r →
        hashtable_get r.ht 9 = hashtable_get demo_table_2 9)
      ∧ (∀ r, hashtable_rm demo_table_2 1 = some r →
          hashtable_get r.ht 9 = hashtable_get demo_table_2 9)
      ∧ (∀ v malloc_ok, (hashtable_put demo_table_2 1 v malloc_ok).isSome = true
          ↔ demo_table_2.hash_fn 1 demo_table_2.order < demo_table_2.hash_buckets_len)
      ∧ ((hashtable_rm demo_table_2 1).isSome = true
          ↔ demo_table_2.hash_fn 1 demo_table_2.order < demo_table_2.hash_buckets_len) :=
  get_unaffected_by_other_key demo_table_2 demo_reachable_2 demo_equivalence 1 9 (by decide)

/-! ## Removing the current entry during an iteration -/

theorem getElem?_at_split {N : Type} (done rest : List N) (c : N) :
    (done ++ c :: rest)[done.length]? = some c := by
  rw [List.getElem?_append_right (Nat.le_refl _), Nat.sub_self]
  exact List.getElem?_cons_zero

theorem set_at_split {N : Type} (done rest : List N) (c x : N) :
    (done ++ c :: rest).set done.length x = done ++ x :: rest := by
  induction done with
  | nil => rfl
  | cons a l ih => simp [List.set_cons_succ, ih]

/-- Walking a chain with the removing visitor on a reachable table with a
reflexive comparison hands every node of the chain to the visitor, in order,
and leaves the chain empty and the other chains untouched. -/
theorem removing_chain {K V D : Type} (i : Nat) (c : List (hash_node K V)) :
    ∀ (t : hash_table K V D) (fuel : Nat) (seen : List (hash_node K V)),
      Reachable t → (∀ a, keys_equal t.map a a) → t.hash_buckets[i]? = some c →
      c.length ≤ fuel →
      ∃ t1, foreach_calling_chain remove_visit i fuel t (chain_start c) seen
            = chain_walk.finished t1 (seen ++ c)
        ∧ Reachable t1 ∧ same_config t t1 ∧ t1.hash_buckets = t.hash_buckets.set i [] := by
  induction c with
  | nil =>
    intro t fuel seen hr _ hb _
    refine ⟨t, ?_, hr, ⟨rfl, rfl, rfl, rfl⟩, ?_⟩
    · unfold foreach_calling_chain
      simp [chain_start]
    · obtain ⟨pre, post, e1, -, e3⟩ := bucket_split _ _ _ hb
      rw [e3 []]
      exact e1
  | cons n0 rest ih =>
    intro t fuel seen hr hrefl hb hfuel
    obtain ⟨f, rfl⟩ : ∃ f, fuel = f + 1 := ⟨fuel - 1, by simp at hfuel; omega⟩
    have hlen : i < t.hash_buckets.length := (List.getElem?_eq_some.mp hb).1
    have hidx : t.hash_fn n0.key t.order = i :=
      reachable_placed t hr i _ hb n0 (List.mem_cons_self _ _)
    have hcmp : t.map.key_compare_func n0.key n0.key t.map.key_compare_data = 0 := hrefl n0.key
    obtain ⟨t1, hop⟩ : ∃ t1, apply_op t (map_op.rm n0.key) = some t1 := by
      rw [apply_op_eq]
      simp only [map_op.key, hidx, hb, Option.map_some']
      exact ⟨_, rfl⟩
    have hbs1 : t1.hash_buckets = t.hash_buckets.set i rest := by
      rw [apply_op_eq] at hop
      simp only [map_op.key, hidx, hb, Option.map_some', Option.some.injEq] at hop
      subst hop
      simp [op_chain, chain_without, hcmp]
    have hcursor : cursor_after_op t i
        (if 0 + 1 < (n0 :: rest).length then list_cursor.node (0 + 1) else list_cursor.head)
        (map_op.rm n0.key) = chain_start rest := by
      cases rest with
      | nil => simp [cursor_after_op, chain_start]
      | cons n1 rest1 =>
        simp [cursor_after_op, chain_start, map_op.key, hidx, hb, chain_find, hcmp]
    have hc := apply_op_config _ _ _ hop
    have hb1 : t1.hash_buckets[i]? = some rest := by
      rw [hbs1, List.getElem?_set_self hlen]
    obtain ⟨t2, h1, h2, h3, h4⟩ := ih t1 f (seen ++ [n0]) (apply_op_reachable _ _ _ hr hop)
      (fun a => by rw [hc.1]; exact hrefl a) hb1 (by simp at hfuel; omega)
    refine ⟨t2, ?_, h2, ?_, ?_⟩
    · have h1a : foreach_calling_chain remove_visit i f t1 (chain_start rest) (seen ++ [n0])
          = chain_walk.finished t2 (seen ++ n0 :: rest) := by
        rw [h1]; simp
      have hstart : chain_start (n0 :: rest) = list_cursor.node 0 := rfl
      rw [hstart]
      unfold foreach_calling_chain
      simp only [hb, List.getElem?_cons_zero, remove_visit, visitor_calls, hop,
        hcursor, ne_eq, not_true_eq_false, if_false]
      exact h1a
    · exact ⟨h3.1.trans hc.1, h3.2.1.trans hc.2.1, h3.2.2.1.trans hc.2.2.1,
        h3.2.2.2.trans hc.2.2.2⟩
    · rw [h4, hbs1, List.set_set]

theorem removing_buckets {K V D : Type} (fuel : Nat) (rest : List (List (hash_node K V))) :
    ∀ (done : List (List (hash_node K V))) (t : hash_table K V D)
      (seen : List (hash_node K V)),
      Reachable t → (∀ a, keys_equal t.map a a) → t.hash_buckets = done ++ rest →
      (∀ c ∈ rest, c.length ≤ fuel) →
      ∃ t1, foreach_calling_buckets remove_visit fuel rest.length done.length t seen
            = foreach_result.returned t1 (seen ++ rest.flatten)
        ∧ Reachable t1 ∧ same_config t t1
        ∧ t1.hash_buckets = done ++ List.replicate rest.length [] := by
  induction rest with
  | nil =>
    intro done t seen hr _ hb _
    exact ⟨t, by simp [foreach_calling_buckets], hr, ⟨rfl, rfl, rfl, rfl⟩, by simpa using hb⟩
  | cons c rest1 ih =>
    intro done t seen hr hrefl hb hfuel
    have hbi : t.hash_buckets[done.length]? = some c := by
      rw [hb]; exact getElem?_at_split done rest1 c
    obtain ⟨t1, h1, h2, h3, h4⟩ := removing_chain done.length c t fuel seen hr hrefl hbi
      (hfuel c (List.mem_cons_self _ _))
    have hb1 : t1.hash_buckets = (done ++ [[]]) ++ rest1 := by
      rw [h4, hb, set_at_split]
      simp
    obtain ⟨t2, h5, h6, h7, h8⟩ := ih (done ++ [[]]) t1 (seen ++ c) h2
      (fun a => by rw [h3.1]; exact hrefl a) hb1
      (fun x hx => hfuel x (List.mem_cons_of_mem _ hx))
    refine ⟨t2, ?_, h6, ?_, ?_⟩
    · simp only [List.length_cons, foreach_calling_buckets, hbi, h1]
      simp only [List.length_append, List.length_singleton] at h5
      rw [h5]
      simp
    · exact ⟨h7.1.trans h3.1, h7.2.1.trans h3.2.1, h7.2.2.1.trans h3.2.2.1,
        h7.2.2.2.trans h3.2.2.2⟩
    · rw [h8]
      simp [List.replicate_succ]

/-- C17: on a reachable table whose comparison callback reports every key
equal to itself (in particular when it is an equivalence relation), the
iteration with the visitor that removes the entry it has just been handed and
never signals stop is defined and ends, once the fuel covers the longest chain
(`count` suffices); it hands the visitor exactly the sequence of entries of the
non-mutating full iteration, each once, and leaves `count` at 0 and every
bucket chain empty. -/
theorem foreach_removing_visitor {K V D : Type} (t : hash_table K V D) (hr : Reachable t)
    (hrefl : ∀ a, keys_equal t.map a a) (fuel : Nat) (hfuel : hashtable_count_get t ≤ fuel) :
    ∃ t1, hashtable_foreach_calling t remove_visit [] fuel
          = foreach_result.returned t1 (live_entries t)
      ∧ hashtable_foreach t record_visit [] = some (live_entries t)
      ∧ hashtable_count_get t1 = 0
      ∧ (∀ chain ∈ t1.hash_buckets, chain = [])
      ∧ t1.hash_buckets.length = t.hash_buckets.length
      ∧ same_config t t1 := by
  have hinv := reachable_inv t hr
  obtain ⟨t1, h1, h2, h3, h4⟩ := removing_buckets fuel t.hash_buckets [] t [] hr hrefl rfl
    (fun c hc => by
      obtain ⟨i, hi⟩ := List.mem_iff_getElem?.mp hc
      exact le_trans (chain_length_le_count t hinv i c hi) hfuel)
  have hempty : ∀ chain ∈ t1.hash_buckets, chain = [] := by
    intro chain hc
    rw [h4, List.nil_append] at hc
    exact (List.mem_replicate.mp hc).2
  refine ⟨t1, ?_, foreach_record t hr, ?_, hempty, ?_, h3⟩
  · unfold hashtable_foreach_calling
    rw [← hinv.1]
    simpa using h1
  · have hinv1 := reachable_inv t1 h2
    have hcount : t1.count = t1.hash_buckets.flatten.length := hinv1.2
    rw [hashtable_count_get, hcount, h4]
    simp
  · rw [h4]
    simp

theorem foreach_removing_visitor_witness :
    ∃ t1, hashtable_foreach_calling demo_table_2 remove_visit [] 2
          = foreach_result.returned t1 (live_entries demo_table_2)
      ∧ hashtable_foreach demo_table_2 record_visit [] = some (live_entries demo_table_2)
      ∧ hashtable_count_get t1 = 0
      ∧ (∀ chain ∈ t1.hash_buckets, chain = [])
      ∧ t1.hash_buckets.length = demo_table_2.hash_buckets.length
      ∧ same_config demo_table_2 t1 :=
  foreach_removing_visitor demo_table_2 demo_reachable_2 demo_equivalence.refl 2 (by decide)

/-! ## Agreement of the two renderings of `hashtable_foreach` -/

theorem quiet_chain {K V D U : Type} (func : K → V → U → Int × U) (t : hash_table K V D)
    (i : Nat) (ch : List (hash_node K V)) (hb : t.hash_buckets[i]? = some ch) (k : Nat) :
    ∀ (p fuel : Nat) (u : U), p + k = ch.length → k ≤ fuel →
      foreach_calling_chain (quiet_visit func) i fuel t
          (if p < ch.length then list_cursor.node p else list_cursor.head) u
        = if (foreach_chain func (ch.drop p) u).1 = true
          then chain_walk.stopped t (foreach_chain func (ch.drop p) u).2
          else chain_walk.finished t (foreach_chain func (ch.drop p) u).2 := by
  induction k with
  | zero =>
    intro p fuel u hp _
    have hd : ch.drop p = [] := List.drop_eq_nil_of_le (by omega)
    have hlt : ¬ p < ch.length := by omega
    unfold foreach_calling_chain
    simp [hlt, hd, foreach_chain]
  | succ k ih =>
    intro p fuel u hp hfuel
    obtain ⟨f, rfl⟩ : ∃ f, fuel = f + 1 := ⟨fuel - 1, by omega⟩
    have hlt : p < ch.length := by omega
    have hd : ch.drop p = ch[p] :: ch.drop (p + 1) := List.drop_eq_getElem_cons hlt
    have hrec := ih (p + 1) f (func ch[p].key ch[p].value u).2 (by omega) (by omega)
    unfold foreach_calling_chain
    simp only [hlt, if_true, hb, List.getElem?_eq_getElem hlt, quiet_visit, visitor_calls, hd,
      foreach_chain]
    by_cases hs : (func ch[p].key ch[p].value u).1 = 0
    · simp only [hs, ne_eq, not_true_eq_false, if_false]
      exact hrec
    · simp [hs]

/-- For a visitor that makes no call on the map, the rendering of
`hashtable_foreach` that follows the `next` pointer through the visitor's calls
agrees with the rendering for visitors that do not touch the table, and leaves
the table as it was. -/
theorem foreach_calling_quiet {K V D U : Type} (func : K → V → U → Int × U)
    (t : hash_table K V D) (fuel : Nat) (hfuel : ∀ c ∈ t.hash_buckets, c.length ≤ fuel)
    (todo : Nat) :
    ∀ (i : Nat) (u : U), i + todo = t.hash_buckets.length →
      foreach_calling_buckets (quiet_visit func) fuel todo i t u
          = foreach_result.returned t (foreach_chain func (t.hash_buckets.drop i).flatten u).2
        ∧ foreach_buckets t func todo i u
          = some (foreach_chain func (t.hash_buckets.drop i).flatten u).2 := by
  induction todo with
  | zero =>
    intro i u hi
    exact ⟨by
      have : t.hash_buckets.drop i = [] := List.drop_eq_nil_of_le (by omega)
      simp [foreach_calling_buckets, this, foreach_chain], foreach_buckets_eq t func 0 i u hi⟩
  | succ n ih =>
    intro i u hi
    refine ⟨?_, foreach_buckets_eq t func (n + 1) i u hi⟩
    have hlt : i < t.hash_buckets.length := by omega
    have hb : t.hash_buckets[i]? = some t.hash_buckets[i] := List.getElem?_eq_getElem hlt
    have hd : t.hash_buckets.drop i = t.hash_buckets[i] :: t.hash_buckets.drop (i + 1) :=
      List.drop_eq_getElem_cons hlt
    have hstart : chain_start t.hash_buckets[i]
        = if 0 < t.hash_buckets[i].length then list_cursor.node 0 else list_cursor.head := by
      cases t.hash_buckets[i] <;> simp [chain_start]
    have hwalk := quiet_chain func t i _ hb t.hash_buckets[i].length 0 fuel u (by omega)
      (hfuel _ (List.getElem_mem _))
    rw [List.drop_zero] at hwalk
    simp only [foreach_calling_buckets, hb, hstart, hwalk, hd, List.flatten_cons,
      foreach_chain_append]
    by_cases hs : (foreach_chain func t.hash_buckets[i] u).1 = true
    · simp [hs]
    · simp only [hs, if_false, Bool.false_eq_true]
      exact (ih (i + 1) _ (by omega)).1

end Qb
